import Mathlib

/-!
# LevelDB-PMDK: the persistent-memory environment (`util/env_pmem.cc`)

A shallow embedding of the file abstraction, the directory registry, the
advisory lock table and the background queue of `util/env_pmem.cc`, and the
properties of the specification that are stated about them.

Conventions of the embedding.

* A byte is a natural number; a memory block is a `List Byte`.
* `size_t` quantities are natural numbers.  The subtraction `kBufSize - pos_`
  of the writer is taken under the invariant `pos_ ≤ kBufSize`
  (`PmemWritableFile.WF`, kept by `Append`: `PmemWritableFile.Append_WF`); the
  other two, `n -= copy` and `n -= r`, have `copy ≤ n` by construction and
  `r ≤ n` checked (a larger count has no defined behaviour).
* `kBufSize` comes from `env_posix.cc`, which is included by the source but is
  not part of it; it is a parameter of every definition that uses it.
* The durable heap (`pmem/pmem_file.h`, `pmem/pmem_directory.h`) is not part of
  the source either; the few facts needed about it are modelled from the
  specification and marked so.
* Everything the operating system or the durable heap decides (how many bytes
  one durable append takes, whether `open` or `fcntl` succeed, whether a pool
  can be created) is an explicit argument.
-/

namespace leveldb

/-! ## Status -/

/-- One byte of file content. -/
abbrev Byte := Nat

/-- The value of `EINTR` in `<errno.h>`. -/
def EINTR : Int := 4

/-- The statuses this file produces.  `posixError context errno` stands for the
value of `PosixError(context, errno)`; `ioError msg msg2` for
`Status::IOError(msg, msg2)`. -/
inductive Status where
  | ok
  | posixError (context : String) (errno : Int)
  | ioError (msg : String) (msg2 : String)
deriving DecidableEq, Repr

/-- The C++ `Status::ok()`. -/
def Status.isOk : Status → Bool
  | .ok => true
  | _ => false

/-- Modelled from the spec: `PosixError` is defined in `env_posix.cc`, which is
absent.  The specification describes its result as an I/O error that carries
the path and the OS error code; it is kept as the symbolic status
`Status.posixError`, which is never OK. -/
def PosixError (context : String) (errno : Int) : Status :=
  Status.posixError context errno

/-- The result of running a piece of the C++ against a finite list of outcomes
of the durable heap. -/
inductive Run (α : Type) where
  /-- the call returned -/
  | done (a : α)
  /-- the listed outcomes were used up while a loop was still running -/
  | pending
  /-- the C++ has no defined behaviour here (a count larger than the request,
  a null file object) -/
  | undefined
  /-- a C++ exception left the function (`pobj::pool_error`: a pool could not
  be created or opened); nothing in this file catches it -/
  | threw
deriving DecidableEq, Repr

/-- Sequencing of `Run`. -/
def Run.bind {α β : Type} (x : Run α) (f : α → Run β) : Run β :=
  match x with
  | .done a => f a
  | .pending => .pending
  | .undefined => .undefined
  | .threw => .threw

/-! ## The durable file object -/

/-- Modelled from the spec: `PmemFile` is declared in `pmem/pmem_file.h`, which
is absent.  The specification calls it the File Content Object: the durable
byte content of one data file. -/
structure PmemFile where
  contents : List Byte
deriving DecidableEq, Repr

/-- Modelled from the spec: `pobj::make_persistent<PmemFile>(pool)`, a newly
allocated File Content Object; it has no content yet. -/
def PmemFile.fresh : PmemFile := ⟨[]⟩

/-- The root object of a file pool (`rootFile`, declared in the absent
`pmem/pmem_file.h`): its one member used here is the persistent pointer
`file`, null in a pool that was just created. -/
structure rootFile where
  file : Option PmemFile
deriving DecidableEq, Repr

/-- What one call `ptr->file->Append(p, n)` did: it returned the count `r ≥ 0`
after appending the first `r` bytes of the request, or it returned a negative
value with `errno` set and appended nothing. -/
inductive AppendOutcome where
  | wrote (r : Nat)
  | failed (errno : Int)
deriving DecidableEq, Repr

/-- The behaviour of the durable heap at one call of `PmemFile::Append`: the
outcome as a function of the number of bytes requested. -/
abbrev AppendBehaviour := Nat → AppendOutcome

/-- The outcomes of the successive calls of `PmemFile::Append`. -/
abbrev Device := List AppendBehaviour

/-- Modelled from the spec: `ssize_t PmemFile::Append(const char* p, size_t n)`
of the absent `pmem/pmem_file.h`, under the outcome `o`.  Returns the value
`r`, `errno`, and the file afterwards. -/
def PmemFile.Append (f : PmemFile) (o : AppendOutcome) (p : List Byte) :
    Int × Int × PmemFile :=
  match o with
  | .wrote r => ((r : Int), 0, ⟨f.contents ++ p.take r⟩)
  | .failed errno => (-1, errno, f)

/-! ## `PmemWritableFile` -/

/-- `PmemWritableFile::WriteRaw(p, n)`; the block `p` has `n = p.length` bytes.
The result is the status, the file object and the outcomes not yet used.

```
while (n > 0) {
  ssize_t r = ptr->file->Append(p, n);
  if (r < 0) {
    if (errno == EINTR) continue;
    return PosixError(filename_, errno);
  }
  p += r; n -= r;
}
return Status::OK();
```
-/
def WriteRaw (filename_ : String) :
    Device → List Byte → PmemFile → Run (Status × PmemFile × Device)
  | dev, [], file => .done (Status.ok, file, dev)
  | [], _ :: _, _ => .pending
  | b :: dev, x :: xs, file =>
    let p := x :: xs
    let n := p.length
    let (r, errno, file1) := file.Append (b n) p
    if r < 0 then
      if errno = EINTR then WriteRaw filename_ dev p file
      else .done (PosixError filename_ errno, file, dev)
    else if r.toNat ≤ n then WriteRaw filename_ dev (p.drop r.toNat) file1
    else .undefined

/-- The C `memcpy(dst + off, src, cnt)` on a memory block `dst`: `cnt` bytes
of `src` replace the bytes of `dst` from position `off` on. -/
def memcpy (dst : List Byte) (off : Nat) (src : List Byte) (cnt : Nat) : List Byte :=
  dst.take off ++ src.take cnt ++ dst.drop (off + cnt)

/-- The volatile part of a `PmemWritableFile`: the name, the staging buffer
`buf_[kBufSize]` and the fill position `pos_`.  The File Content Object that
`ptr->file` designates is passed to every operation and returned by it. -/
structure PmemWritableFile where
  filename_ : String
  buf_ : List Byte
  pos_ : Nat
deriving DecidableEq, Repr

/-- The constructor `PmemWritableFile(fname, pool)`: the volatile part with
`pos_(0)` and a buffer of `kBufSize` bytes (their initial values are never
written out), and the root of the pool after the constructor's transaction

```
ptr = pool.get_root();
pobj::transaction::exec_tx(pool, [&] { ptr->file = pobj::make_persistent<PmemFile> (pool); });
```

which replaces whatever `ptr->file` held before. -/
def PmemWritableFile.new (kBufSize : Nat) (fname : String) (pool : rootFile) :
    PmemWritableFile × rootFile :=
  ({ filename_ := fname, buf_ := List.replicate kBufSize 0, pos_ := 0 },
   { pool with file := some PmemFile.fresh })

/-- The representation invariant of the writer: the buffer has `kBufSize`
bytes and `pos_` does not exceed it. -/
def PmemWritableFile.WF (kBufSize : Nat) (w : PmemWritableFile) : Prop :=
  w.buf_.length = kBufSize ∧ w.pos_ ≤ kBufSize

/-- The bytes staged in the buffer: `buf_[0 .. pos_)`. -/
def PmemWritableFile.staged (w : PmemWritableFile) : List Byte :=
  w.buf_.take w.pos_

/-- `PmemWritableFile::FlushBuffered()`:

```
Status s = WriteRaw(buf_, pos_);
pos_ = 0;
return s;
```
-/
def PmemWritableFile.FlushBuffered (w : PmemWritableFile) (file : PmemFile) (dev : Device) :
    Run (Status × PmemWritableFile × PmemFile × Device) :=
  (WriteRaw w.filename_ dev (w.buf_.take w.pos_) file).bind fun (s, file1, dev1) =>
    .done (s, { w with pos_ := 0 }, file1, dev1)

/-- `PmemWritableFile::Append(data)`.  The three locals `a`, `b`, `type` that
the source computes from `buf_[4..6]` are never used and are left out.

```
size_t n = data.size();  const char* p = data.data();
size_t copy = std::min(n, kBufSize - pos_);
memcpy(buf_ + pos_, p, copy);
p += copy;  n -= copy;  pos_ += copy;
if (n == 0) return Status::OK();
Status s = FlushBuffered();
if (!s.ok()) return s;
if (n < kBufSize) { memcpy(buf_, p, n); pos_ = n; return Status::OK(); }
return WriteRaw(p, n);
```
-/
def PmemWritableFile.Append (kBufSize : Nat) (w : PmemWritableFile) (data : List Byte)
    (file : PmemFile) (dev : Device) :
    Run (Status × PmemWritableFile × PmemFile × Device) :=
  let n := data.length
  let p := data
  let copy := min n (kBufSize - w.pos_)
  let w1 : PmemWritableFile :=
    { w with buf_ := memcpy w.buf_ w.pos_ p copy, pos_ := w.pos_ + copy }
  let p := p.drop copy
  let n := n - copy
  if n = 0 then .done (Status.ok, w1, file, dev)
  else
    (w1.FlushBuffered file dev).bind fun (s, w2, file2, dev2) =>
      if !s.isOk then .done (s, w2, file2, dev2)
      else if n < kBufSize then
        .done (Status.ok, { w2 with buf_ := memcpy w2.buf_ 0 p n, pos_ := n }, file2, dev2)
      else
        (WriteRaw w2.filename_ dev2 p file2).bind fun (s3, file3, dev3) =>
          .done (s3, w2, file3, dev3)

/-- `PmemWritableFile::Close()`: `FlushBuffered()`, then `pool.close()`, which
releases the mapping and leaves the durable content as it is. -/
def PmemWritableFile.Close (w : PmemWritableFile) (file : PmemFile) (dev : Device) :
    Run (Status × PmemWritableFile × PmemFile × Device) :=
  w.FlushBuffered file dev

/-- `PmemWritableFile::Flush()`: `return FlushBuffered();`. -/
def PmemWritableFile.Flush (w : PmemWritableFile) (file : PmemFile) (dev : Device) :
    Run (Status × PmemWritableFile × PmemFile × Device) :=
  w.FlushBuffered file dev

/-- `PmemWritableFile::SyncDirIfManifest()`: `return Status::OK();`. -/
def PmemWritableFile.SyncDirIfManifest (_w : PmemWritableFile) : Status := Status.ok

/-- `PmemWritableFile::Sync()`: the status of `SyncDirIfManifest()` is
overwritten by that of `FlushBuffered()`. -/
def PmemWritableFile.Sync (w : PmemWritableFile) (file : PmemFile) (dev : Device) :
    Run (Status × PmemWritableFile × PmemFile × Device) :=
  let _s := w.SyncDirIfManifest
  w.FlushBuffered file dev

/-- A client that calls `Append` on each block of `ds` in turn, whatever the
earlier calls returned; the statuses are collected in order. -/
def PmemWritableFile.AppendAll (kBufSize : Nat) :
    PmemWritableFile → List (List Byte) → PmemFile → Device →
    Run (List Status × PmemWritableFile × PmemFile × Device)
  | w, [], file, dev => .done ([], w, file, dev)
  | w, d :: ds, file, dev =>
    (w.Append kBufSize d file dev).bind fun (s, w1, file1, dev1) =>
      (PmemWritableFile.AppendAll kBufSize w1 ds file1 dev1).bind fun (ss, w2, file2, dev2) =>
        .done (s :: ss, w2, file2, dev2)

/-- The blocks `ds` are appended in order and the writer is closed: the
statuses of the appends, the status of `Close`, and the durable content
afterwards. -/
def PmemWritableFile.AppendAllThenClose (kBufSize : Nat) (w : PmemWritableFile)
    (ds : List (List Byte)) (file : PmemFile) (dev : Device) :
    Run (List Status × Status × PmemFile) :=
  (w.AppendAll kBufSize ds file dev).bind fun (ss, w1, file1, dev1) =>
    (w1.Close file1 dev1).bind fun (s, _, file2, _) => .done (ss, s, file2)

/-- A durable append that takes the whole request. -/
def takesAll : AppendBehaviour := fun n => .wrote n

/-- A durable append that takes one byte of the request. -/
def takesOne : AppendBehaviour := fun _ => .wrote 1

/-- A durable append that is interrupted. -/
def interrupted : AppendBehaviour := fun _ => .failed EINTR

/-- A durable append that fails with `errno`. -/
def failsWith (errno : Int) : AppendBehaviour := fun _ => .failed errno

/-- Every call of the durable append succeeds: on a request of `n > 0` bytes
it takes between `1` and `n` of them. -/
def Device.Succeeds (dev : Device) : Prop :=
  ∀ b ∈ dev, ∀ n, 0 < n → ∃ r, b n = .wrote r ∧ 0 < r ∧ r ≤ n

/-! ## Readers -/

/-- The conversion of an `ssize_t` to `size_t` (64 bits). -/
def toSizeT (r : Int) : Nat := (r % 2 ^ 64).toNat

/-- A `Slice(data, size)`: `data` is the memory block the pointer designates,
`size` the length the slice claims. -/
structure Slice where
  data : List Byte
  size : Nat
deriving DecidableEq, Repr

/-- The outcome of one read of the File Content Object (`PmemFile::Read`, in
the absent `pmem/pmem_file.h`): the `ssize_t` it returns and the content of
`scratch` afterwards. -/
abbrev ReadOutcome := Int × List Byte

/-- `PmemSequentialFile::Read(n, result, scratch)`; `rd n` is the outcome of
`ptr->file->Read(n, scratch)`.

```
Status s;
ssize_t r = ptr->file->Read(n, scratch);
*result = Slice(scratch, r);
return s;
```
-/
def PmemSequentialFile.Read (rd : Nat → ReadOutcome) (n : Nat) : Status × Slice :=
  let s := Status.ok
  let (r, scratch) := rd n
  (s, ⟨scratch, toSizeT r⟩)

/-- `PmemRandomAccessFile::Read(offset, n, result, scratch)`; `rd offset n` is
the outcome of `ptr->file->Read(offset, n, scratch)`.

```
Status s;
ssize_t r = ptr->file->Read(offset, n, scratch);
*result = Slice(scratch, (r<0 ? 0 : r));
return s;
```
-/
def PmemRandomAccessFile.Read (rd : Nat → Nat → ReadOutcome) (offset n : Nat) :
    Status × Slice :=
  let s := Status.ok
  let (r, scratch) := rd offset n
  (s, ⟨scratch, toSizeT (if r < 0 then 0 else r)⟩)

/-- Modelled from the spec: `PmemFile::Read(offset, n, scratch)` of the absent
`pmem/pmem_file.h`.  The specification: it returns up to `n` bytes from
`offset`, the exact substring when the range lies in the content, and zero
bytes when `offset` is beyond the content length; a read failure is reported
by a negative count.  `failure` says whether this read fails. -/
def PmemFile.ReadAt (f : PmemFile) (failure : Bool) (offset n : Nat) : ReadOutcome :=
  if failure then (-1, [])
  else
    let bytes := (f.contents.drop offset).take n
    ((bytes.length : Int), bytes)

/-! ## The environment: pools and the directory registry -/

/-- Modelled from the spec: `PmemDirectory` is declared in the absent
`pmem/pmem_directory.h`.  The specification calls it the Directory Entry Set:
a durable, append-only collection of references to the roots of the data
files' pools.  A reference to the root of the pool at a path is represented by
that path. -/
structure PmemDirectory where
  entries : List String
deriving DecidableEq, Repr

/-- Modelled from the spec: `pobj::make_persistent<PmemDirectory>()`, an empty
Directory Entry Set. -/
def PmemDirectory.fresh : PmemDirectory := ⟨[]⟩

/-- Modelled from the spec: `PmemDirectory::Append(&Dir_pool, root)` appends a
reference to the collection. -/
def PmemDirectory.Append (d : PmemDirectory) (ref : String) : PmemDirectory :=
  ⟨d.entries ++ [ref]⟩

/-- The root object of the directory pool (`rootDirectory`): the persistent
pointer `dir`, null in a pool that was just created. -/
structure rootDirectory where
  dir : Option PmemDirectory
deriving DecidableEq, Repr

/-- The durable state the environment works on: the file pools by path
(`none`: nothing exists at the path) and the directory pool at the fixed path
`/home/hwan/pmem_dir/Directory` (`none`: it does not exist). -/
structure Pmem where
  files : String → Option rootFile
  directory : Option rootDirectory

/-- The state with the pool at `path` replaced. -/
def Pmem.setFile (world : Pmem) (path : String) (root : Option rootFile) : Pmem :=
  { world with files := fun q => if q = path then root else world.files q }

/-- The `file_exists(name)` of the source and `PmemEnv::FileExists`. -/
def Pmem.file_exists (world : Pmem) (name : String) : Bool :=
  (world.files name).isSome

/-- The content of the data file at `path`, if there is a pool with a File
Content Object there. -/
def Pmem.contentAt (world : Pmem) (path : String) : Option (List Byte) :=
  match world.files path with
  | some ⟨some f⟩ => some f.contents
  | _ => none

/-- The entries of the Directory Registry, if the directory pool exists and
its Directory Entry Set is allocated. -/
def Pmem.registry (world : Pmem) : Option (List String) :=
  match world.directory with
  | some ⟨some d⟩ => some d.entries
  | _ => none

/-- The common beginning of the four `New...File` functions:

```
if (!file_exists(fname)) pool = pobj::pool<rootFile>::create (fname, POOLID, ...);
else                     pool = pobj::pool<rootFile>::open (fname, POOLID);
```

`poolOk = false`: `create` or `open` throws.  The result is the state and the
root of the pool. -/
def Pmem.createOrOpen (world : Pmem) (fname : String) (poolOk : Bool) :
    Run (Pmem × rootFile) :=
  if !poolOk then .threw
  else
    match world.files fname with
    | none => .done (world.setFile fname (some ⟨none⟩), ⟨none⟩)
    | some root => .done (world, root)

/-- The constructor `PmemEnv::PmemEnv()` on the durable state:

```
if (!FileExists(path)) Dir_pool = pobj::pool<rootDirectory>::create(path, POOL_DIR_ID, ...);
else                   Dir_pool = pobj::pool<rootDirectory>::open(path, POOL_DIR_ID);
Dir_ptr = Dir_pool.get_root();
pobj::transaction::exec_tx(Dir_pool, [&] { Dir_ptr->dir = pobj::make_persistent<PmemDirectory> (); });
```
-/
def PmemEnv.new (world : Pmem) (poolOk : Bool) : Run Pmem :=
  if !poolOk then .threw
  else
    let Dir_ptr : rootDirectory :=
      match world.directory with
      | none => ⟨none⟩
      | some root => root
    .done { world with directory := some { Dir_ptr with dir := some PmemDirectory.fresh } }

/-- The handle `PmemSequentialFile(fname, pool)`. -/
structure PmemSequentialFile where
  filename_ : String
deriving DecidableEq, Repr

/-- The handle `PmemRandomAccessFile(fname, pool)`. -/
structure PmemRandomAccessFile where
  filename_ : String
deriving DecidableEq, Repr

/-- `PmemEnv::NewSequentialFile(fname, result)`: create or open the pool,
`*result = new PmemSequentialFile(fname, pool); return s;` with `Status s;`. -/
def PmemEnv.NewSequentialFile (world : Pmem) (fname : String) (poolOk : Bool) :
    Run (Status × PmemSequentialFile × Pmem) :=
  (world.createOrOpen fname poolOk).bind fun (world1, _) =>
    .done (Status.ok, ⟨fname⟩, world1)

/-- `PmemEnv::NewRandomAccessFile(fname, result)`: create or open the pool,
`*result = new PmemRandomAccessFile(fname, pool); return s;` with `Status s;`. -/
def PmemEnv.NewRandomAccessFile (world : Pmem) (fname : String) (poolOk : Bool) :
    Run (Status × PmemRandomAccessFile × Pmem) :=
  (world.createOrOpen fname poolOk).bind fun (world1, _) =>
    .done (Status.ok, ⟨fname⟩, world1)

/-- The line `Status a = Dir_ptr->dir->Append(&Dir_pool, pool.get_root());` of
the two writer-opening functions; the status `a` is not looked at.  With no
directory pool or a null `dir` the C++ has no defined behaviour. -/
def Pmem.registerRoot (world : Pmem) (fname : String) : Run Pmem :=
  match world.directory with
  | some ⟨some d⟩ => .done { world with directory := some ⟨some (d.Append fname)⟩ }
  | _ => .undefined

/-- `PmemEnv::NewWritableFile(fname, result)`:

```
Status s;
(create or open the pool)
*result = new PmemWritableFile(fname, pool);
Status a = Dir_ptr->dir->Append(&Dir_pool, pool.get_root());
return s;
```
-/
def PmemEnv.NewWritableFile (kBufSize : Nat) (world : Pmem) (fname : String) (poolOk : Bool) :
    Run (Status × PmemWritableFile × Pmem) :=
  (world.createOrOpen fname poolOk).bind fun (world1, pool) =>
    let (result, pool1) := PmemWritableFile.new kBufSize fname pool
    let world2 := world1.setFile fname (some pool1)
    (world2.registerRoot fname).bind fun world3 =>
      .done (Status.ok, result, world3)

/-- `PmemEnv::NewAppendableFile(fname, result)`; its body is that of
`NewWritableFile`, statement for statement. -/
def PmemEnv.NewAppendableFile (kBufSize : Nat) (world : Pmem) (fname : String)
    (poolOk : Bool) : Run (Status × PmemWritableFile × Pmem) :=
  (world.createOrOpen fname poolOk).bind fun (world1, pool) =>
    let (result, pool1) := PmemWritableFile.new kBufSize fname pool
    let world2 := world1.setFile fname (some pool1)
    (world2.registerRoot fname).bind fun world3 =>
      .done (Status.ok, result, world3)

/-- The value of `ENOENT` in `<errno.h>`. -/
def ENOENT : Int := 2

/-- `PmemEnv::DeleteFile(fname)`:

```
Status result;
if (unlink(fname.c_str()) != 0) result = PosixError(fname, errno);
return result;
```

`unlink` fails with `ENOENT` when nothing exists at the path, and with
`osError` when the operating system refuses for another reason. -/
def PmemEnv.DeleteFile (world : Pmem) (fname : String) (osError : Option Int) :
    Status × Pmem :=
  if !world.file_exists fname then (PosixError fname ENOENT, world)
  else
    match osError with
    | some errno => (PosixError fname errno, world)
    | none => (Status.ok, world.setFile fname none)

/-- One call on the environment, with what the pool layer or the operating
system decides about it. -/
inductive EnvOp where
  | newWritableFile (fname : String) (poolOk : Bool)
  | newAppendableFile (fname : String) (poolOk : Bool)
  | newSequentialFile (fname : String) (poolOk : Bool)
  | newRandomAccessFile (fname : String) (poolOk : Bool)
  | deleteFile (fname : String) (osError : Option Int)
deriving DecidableEq, Repr

/-- The durable state after one call. -/
def PmemEnv.apply (kBufSize : Nat) (world : Pmem) : EnvOp → Run Pmem
  | .newWritableFile fname poolOk =>
    (PmemEnv.NewWritableFile kBufSize world fname poolOk).bind fun (_, _, w) => .done w
  | .newAppendableFile fname poolOk =>
    (PmemEnv.NewAppendableFile kBufSize world fname poolOk).bind fun (_, _, w) => .done w
  | .newSequentialFile fname poolOk =>
    (PmemEnv.NewSequentialFile world fname poolOk).bind fun (_, _, w) => .done w
  | .newRandomAccessFile fname poolOk =>
    (PmemEnv.NewRandomAccessFile world fname poolOk).bind fun (_, _, w) => .done w
  | .deleteFile fname osError => .done (PmemEnv.DeleteFile world fname osError).2

/-- The durable state after a sequence of calls. -/
def PmemEnv.applyAll (kBufSize : Nat) : Pmem → List EnvOp → Run Pmem
  | world, [] => .done world
  | world, op :: ops =>
    (PmemEnv.apply kBufSize world op).bind fun world1 => PmemEnv.applyAll kBufSize world1 ops

/-- The pool of a call, when the call opens a writer. -/
def EnvOp.writerOpen : EnvOp → Option String
  | .newWritableFile fname _ => some fname
  | .newAppendableFile fname _ => some fname
  | _ => none

/-- No pool operation of the call throws. -/
def EnvOp.poolOk : EnvOp → Bool
  | .newWritableFile _ ok => ok
  | .newAppendableFile _ ok => ok
  | .newSequentialFile _ ok => ok
  | .newRandomAccessFile _ ok => ok
  | .deleteFile _ _ => true

/-- A client session on one data file: open it with `NewAppendableFile`,
append the blocks `ds` in order, close.  The writer's `ptr->file` is the File
Content Object of the pool at `fname`; the durable state afterwards holds what
the writer left in it. -/
def PmemEnv.appendSession (kBufSize : Nat) (world : Pmem) (fname : String) (poolOk : Bool)
    (ds : List (List Byte)) (dev : Device) : Run (List Status × Status × Pmem) :=
  (PmemEnv.NewAppendableFile kBufSize world fname poolOk).bind fun (_, w, world1) =>
    match world1.files fname with
    | some ⟨some file⟩ =>
      (w.AppendAllThenClose kBufSize ds file dev).bind fun (ss, s, file1) =>
        .done (ss, s, world1.setFile fname (some ⟨some file1⟩))
    | _ => .undefined

/-! ## The advisory lock table -/

/-- `PosixLockTable` (the class of `env_posix.cc` that the source repeats in a
comment): `std::set<std::string> locked_files_`, kept as a list without
repetition. -/
structure PosixLockTable where
  locked_files_ : List String
deriving DecidableEq, Repr

/-- `PosixLockTable::Insert(fname)`:
`return locked_files_.insert(fname).second;`. -/
def PosixLockTable.Insert (t : PosixLockTable) (fname : String) : Bool × PosixLockTable :=
  if fname ∈ t.locked_files_ then (false, t)
  else (true, ⟨fname :: t.locked_files_⟩)

/-- `PosixLockTable::Remove(fname)`: `locked_files_.erase(fname);`. -/
def PosixLockTable.Remove (t : PosixLockTable) (fname : String) : PosixLockTable :=
  ⟨t.locked_files_.filter (fun q => q ≠ fname)⟩

/-- `PosixFileLock`: the descriptor and the name. -/
structure PosixFileLock where
  fd_ : Int
  name_ : String
deriving DecidableEq, Repr

/-- What the operating system answers during one `LockFile`: the value of
`open(fname, O_RDWR | O_CREAT, 0644)` with its `errno`, and the value of
`LockOrUnlock(fd, true)` with its `errno`. -/
structure LockOs where
  fd : Int
  openErrno : Int
  lockResult : Int
  lockErrno : Int
deriving DecidableEq, Repr

/-- `PmemEnv::LockFile(fname, lock)` on the table `locks_`:

```
*lock = nullptr;
Status result;
int fd = open(fname.c_str(), O_RDWR | O_CREAT, 0644);
if (fd < 0) {
  result = PosixError(fname, errno);
} else if (!locks_.Insert(fname)) {
  close(fd);
  result = Status::IOError("lock " + fname, "already held by process");
} else if (LockOrUnlock(fd, true) == -1) {
  result = PosixError("lock " + fname, errno);
  close(fd);
  locks_.Remove(fname);
} else {
  PosixFileLock* my_lock = new PosixFileLock;
  my_lock->fd_ = fd;  my_lock->name_ = fname;
  *lock = my_lock;
}
return result;
```
-/
def PmemEnv.LockFile (locks_ : PosixLockTable) (fname : String) (os : LockOs) :
    Status × Option PosixFileLock × PosixLockTable :=
  if os.fd < 0 then (PosixError fname os.openErrno, none, locks_)
  else
    let (inserted, locks1) := locks_.Insert fname
    if !inserted then
      (Status.ioError ("lock " ++ fname) "already held by process", none, locks1)
    else if os.lockResult = -1 then
      (PosixError ("lock " ++ fname) os.lockErrno, none, locks1.Remove fname)
    else
      (Status.ok, some ⟨os.fd, fname⟩, locks1)

/-- `PmemEnv::UnlockFile(lock)`; `unlockResult` and `errno` are the answer of
`LockOrUnlock(my_lock->fd_, false)`.

```
Status result;
if (LockOrUnlock(my_lock->fd_, false) == -1) result = PosixError("unlock", errno);
locks_.Remove(my_lock->name_);
close(my_lock->fd_);
delete my_lock;
return result;
```
-/
def PmemEnv.UnlockFile (locks_ : PosixLockTable) (my_lock : PosixFileLock)
    (unlockResult : Int) (errno : Int) : Status × PosixLockTable :=
  let result := if unlockResult = -1 then PosixError "unlock" errno else Status.ok
  (result, locks_.Remove my_lock.name_)

/-! ## The background queue -/

/-- `BGItem`: a function and its argument, each identified by a number. -/
structure BGItem where
  arg : Nat
  function : Nat
deriving DecidableEq, Repr

/-- The part of `PmemEnv` that `Schedule` and `BGThread` work on, with the two
histories the properties are about: the items passed to `Schedule` and the
items whose function the worker has called, both in order. -/
structure BGState where
  started_bgthread_ : Bool
  queue_ : List BGItem
  scheduled : List BGItem
  executed : List BGItem
deriving DecidableEq, Repr

/-- The state of a newly constructed environment: `started_bgthread_(false)`
and an empty queue. -/
def BGState.init : BGState :=
  { started_bgthread_ := false, queue_ := [], scheduled := [], executed := [] }

/-- `PmemEnv::Schedule(function, arg)`, one critical section under `mu_`:

```
if (!started_bgthread_) { started_bgthread_ = true; pthread_create(...); }
if (queue_.empty()) pthread_cond_signal(&bgsignal_);
queue_.push_back(BGItem());
queue_.back().function = function;
queue_.back().arg = arg;
```
-/
def PmemEnv.Schedule (st : BGState) (function : Nat) (arg : Nat) : BGState :=
  let item : BGItem := { arg := arg, function := function }
  { st with
    started_bgthread_ := true
    queue_ := st.queue_ ++ [item]
    scheduled := st.scheduled ++ [item] }

/-- One iteration of the loop of `PmemEnv::BGThread()`:

```
pthread_mutex_lock(&mu_);
while (queue_.empty()) pthread_cond_wait(&bgsignal_, &mu_);
void (*function)(void*) = queue_.front().function;
void* arg = queue_.front().arg;
queue_.pop_front();
pthread_mutex_unlock(&mu_);
(*function)(arg);
```

There is one worker, and none before the first `Schedule`; on an empty queue
the worker waits, which leaves the state as it is. -/
def PmemEnv.BGThread (st : BGState) : BGState :=
  if !st.started_bgthread_ then st
  else
    match st.queue_ with
    | [] => st
    | front :: rest =>
      { st with queue_ := rest, executed := st.executed ++ [front] }

/-- What can happen next in the queue state machine. -/
inductive BGEvent where
  | schedule (function : Nat) (arg : Nat)
  | worker
deriving DecidableEq, Repr

/-- One step of the queue state machine. -/
def BGState.step (st : BGState) : BGEvent → BGState
  | .schedule function arg => PmemEnv.Schedule st function arg
  | .worker => PmemEnv.BGThread st

/-- The state after an interleaving of `Schedule` calls and worker
iterations. -/
def BGState.run (st : BGState) (events : List BGEvent) : BGState :=
  events.foldl BGState.step st


/-! ## Auxiliary definitions for the statements -/

/-- The outcomes of a durable append that the specification lists for a
request of `n` bytes: a count between 1 and `n`, or a failure. -/
def AppendOutcome.Valid (n : Nat) : AppendOutcome → Prop
  | .wrote r => 0 < r ∧ r ≤ n
  | .failed _ => True

/-- Every listed outcome is one the specification lists. -/
def Device.Valid (dev : Device) : Prop :=
  ∀ b ∈ dev, ∀ n, 0 < n → (b n).Valid n

/-- The value a run returned, if it returned. -/
def Run.toOption {α : Type} : Run α → Option α
  | .done a => some a
  | _ => none

/-- The durable state with no file pool and no directory pool. -/
def Pmem.empty : Pmem := { files := fun _ => none, directory := none }

/-- The durable state with one data file `fname` of content `content`, and a
directory pool whose Directory Entry Set lists it. -/
def Pmem.single (fname : String) (content : List Byte) : Pmem :=
  { files := fun q => if q = fname then some ⟨some ⟨content⟩⟩ else none,
    directory := some ⟨some ⟨[fname]⟩⟩ }

/-- The range of `ssize_t` (64 bits). -/
def isSSizeT (r : Int) : Prop := -2 ^ 63 ≤ r ∧ r < 2 ^ 63

/-! ## Lemmas on `WriteRaw` -/

theorem Run.bind_done {α β : Type} (a : α) (f : α → Run β) :
    (Run.done a).bind f = f a := rfl

theorem WriteRaw_nil (fn : String) (dev : Device) (file : PmemFile) :
    WriteRaw fn dev [] file = .done (Status.ok, file, dev) := by
  cases dev <;> rfl

theorem WriteRaw_cons (fn : String) (b : AppendBehaviour) (dev : Device) (x : Byte)
    (xs : List Byte) (file : PmemFile) :
    WriteRaw fn (b :: dev) (x :: xs) file =
      match b (xs.length + 1) with
      | .wrote r =>
        if r ≤ xs.length + 1 then
          WriteRaw fn dev ((x :: xs).drop r) ⟨file.contents ++ (x :: xs).take r⟩
        else .undefined
      | .failed e =>
        if e = EINTR then WriteRaw fn dev (x :: xs) file
        else .done (PosixError fn e, file, dev) := by
  rw [WriteRaw]
  cases h : b (xs.length + 1) with
  | wrote r =>
    simp only [List.length_cons, h, PmemFile.Append, Int.toNat_ofNat]
    have : ¬ ((r : Int) < 0) := by omega
    simp [this]
  | failed e =>
    simp [h, PmemFile.Append]

theorem Device.Succeeds.tail {b : AppendBehaviour} {dev : Device}
    (h : Device.Succeeds (b :: dev)) : Device.Succeeds dev :=
  fun c hc => h c (List.mem_cons_of_mem _ hc)

theorem Device.Succeeds.of_suffix {dev1 dev : Device} (hs : dev1 <:+ dev)
    (h : Device.Succeeds dev) : Device.Succeeds dev1 :=
  fun c hc => h c (hs.subset hc)

/-- When every durable append succeeds and there are at least as many outcomes
as bytes, `WriteRaw` returns OK with the whole block appended once. -/
theorem WriteRaw_of_succeeds (fn : String) :
    ∀ (dev : Device) (p : List Byte) (file : PmemFile),
      Device.Succeeds dev → p.length ≤ dev.length →
      ∃ dev1, WriteRaw fn dev p file = .done (Status.ok, ⟨file.contents ++ p⟩, dev1) ∧
        dev1 <:+ dev ∧ dev.length ≤ dev1.length + p.length := by
  intro dev
  induction dev with
  | nil =>
    intro p file _ hlen
    have hp : p = [] := List.eq_nil_of_length_eq_zero (by simpa using hlen)
    subst hp
    exact ⟨[], by simp [WriteRaw_nil], List.suffix_refl _, by simp⟩
  | cons b dev ih =>
    intro p file hs hlen
    cases p with
    | nil => exact ⟨b :: dev, by simp [WriteRaw_nil], List.suffix_refl _, by simp⟩
    | cons x xs =>
      obtain ⟨r, hr, hr0, hrn⟩ := hs b (List.mem_cons_self _ _) (xs.length + 1) (by omega)
      have hlen1 : ((x :: xs).drop r).length ≤ dev.length := by
        simp only [List.length_drop, List.length_cons] at hlen ⊢
        omega
      obtain ⟨dev1, h1, h2, h3⟩ :=
        ih ((x :: xs).drop r) ⟨file.contents ++ (x :: xs).take r⟩ hs.tail hlen1
      refine ⟨dev1, ?_, ?_, ?_⟩
      · rw [WriteRaw_cons, hr]
        simp only [hrn, if_true, h1, List.append_assoc, List.take_append_drop]
      · exact h2.trans (List.suffix_cons _ _)
      · simp only [List.length_drop, List.length_cons] at h3 ⊢
        omega

/-- Whatever the durable appends do, a call of `WriteRaw` that returns has
appended a prefix of the block, the whole block when the status is OK, and a
proper prefix with the status of a failure other than `EINTR` otherwise. -/
theorem WriteRaw_done (fn : String) :
    ∀ (dev : Device) (p : List Byte) (file : PmemFile) (s : Status) (file1 : PmemFile)
      (dev1 : Device),
      WriteRaw fn dev p file = .done (s, file1, dev1) →
      dev1 <:+ dev ∧ ∃ k, k ≤ p.length ∧ file1.contents = file.contents ++ p.take k ∧
        ((s = Status.ok ∧ k = p.length) ∨
         (∃ e, e ≠ EINTR ∧ s = PosixError fn e ∧ k < p.length)) := by
  intro dev
  induction dev with
  | nil =>
    intro p file s file1 dev1 h
    cases p with
    | nil =>
      simp only [WriteRaw_nil, Run.done.injEq, Prod.mk.injEq] at h
      obtain ⟨rfl, rfl, rfl⟩ := h
      exact ⟨List.suffix_refl _, 0, by simp, by simp, Or.inl ⟨rfl, rfl⟩⟩
    | cons x xs => simp [WriteRaw] at h
  | cons b dev ih =>
    intro p file s file1 dev1 h
    cases p with
    | nil =>
      simp only [WriteRaw_nil, Run.done.injEq, Prod.mk.injEq] at h
      obtain ⟨rfl, rfl, rfl⟩ := h
      exact ⟨List.suffix_refl _, 0, by simp, by simp, Or.inl ⟨rfl, rfl⟩⟩
    | cons x xs =>
      rw [WriteRaw_cons] at h
      cases hb : b (xs.length + 1) with
      | wrote r =>
        rw [hb] at h
        by_cases hr : r ≤ xs.length + 1
        · simp only [hr, if_true] at h
          obtain ⟨hsuf, k, hk, hc, hcase⟩ := ih _ _ _ _ _ h
          have hdl : ((x :: xs).drop r).length = xs.length + 1 - r := by simp
          refine ⟨hsuf.trans (List.suffix_cons _ _), r + k, ?_, ?_, ?_⟩
          · simp only [List.length_cons]; omega
          · rw [hc, List.append_assoc, List.take_add]
          · rcases hcase with ⟨h1, h2⟩ | ⟨e, h1, h2, h3⟩
            · exact Or.inl ⟨h1, by simp only [List.length_cons]; omega⟩
            · exact Or.inr ⟨e, h1, h2, by simp only [List.length_cons]; omega⟩
        · simp [hr] at h
      | failed e =>
        rw [hb] at h
        by_cases he : e = EINTR
        · simp only [he, if_true] at h
          obtain ⟨hsuf, k, hk, hc, hcase⟩ := ih _ _ _ _ _ h
          exact ⟨hsuf.trans (List.suffix_cons _ _), k, hk, hc, hcase⟩
        · simp only [he, if_false, Run.done.injEq, Prod.mk.injEq] at h
          obtain ⟨rfl, rfl, rfl⟩ := h
          exact ⟨List.suffix_cons _ _, 0, by simp, by simp,
            Or.inr ⟨e, he, rfl, by simp⟩⟩

/-! ## Lemmas on the buffered writer -/

theorem memcpy_length (dst : List Byte) (off : Nat) (src : List Byte) (cnt : Nat)
    (h1 : off + cnt ≤ dst.length) (h2 : cnt ≤ src.length) :
    (memcpy dst off src cnt).length = dst.length := by
  simp only [memcpy, List.length_append, List.length_take, List.length_drop]
  omega

theorem memcpy_take (dst : List Byte) (off : Nat) (src : List Byte) (cnt : Nat)
    (h1 : off ≤ dst.length) (h2 : cnt ≤ src.length) :
    (memcpy dst off src cnt).take (off + cnt) = dst.take off ++ src.take cnt := by
  have hl : (dst.take off ++ src.take cnt).length = off + cnt := by
    simp only [List.length_append, List.length_take]
    omega
  unfold memcpy
  rw [← hl, List.take_left]

theorem PmemWritableFile.new_WF (kBufSize : Nat) (fname : String) (pool : rootFile) :
    (PmemWritableFile.new kBufSize fname pool).1.WF kBufSize := by
  simp [PmemWritableFile.new, PmemWritableFile.WF]

theorem PmemWritableFile.new_staged (kBufSize : Nat) (fname : String) (pool : rootFile) :
    (PmemWritableFile.new kBufSize fname pool).1.staged = [] := by
  simp [PmemWritableFile.new, PmemWritableFile.staged]

theorem PmemWritableFile.staged_length {kBufSize : Nat} {w : PmemWritableFile}
    (h : w.WF kBufSize) : w.staged.length = w.pos_ := by
  obtain ⟨h1, h2⟩ := h
  simp only [PmemWritableFile.staged, List.length_take]
  omega

theorem PmemWritableFile.FlushBuffered_of_succeeds (w : PmemWritableFile) (file : PmemFile)
    (dev : Device) (hs : Device.Succeeds dev) (hlen : w.staged.length ≤ dev.length) :
    ∃ dev1, w.FlushBuffered file dev =
        .done (Status.ok, { w with pos_ := 0 }, ⟨file.contents ++ w.staged⟩, dev1) ∧
      dev1 <:+ dev ∧ dev.length ≤ dev1.length + w.staged.length := by
  obtain ⟨dev1, h1, h2, h3⟩ := WriteRaw_of_succeeds w.filename_ dev w.staged file hs hlen
  refine ⟨dev1, ?_, h2, h3⟩
  unfold PmemWritableFile.FlushBuffered
  unfold PmemWritableFile.staged at h1
  rw [h1]
  rfl

/-- One `Append` on a device whose appends all succeed: it returns OK, keeps
the invariant, and the durable content followed by the staged bytes grows by
exactly the appended block. -/
theorem PmemWritableFile.Append_of_succeeds (kBufSize : Nat) (w : PmemWritableFile)
    (data : List Byte) (file : PmemFile) (dev : Device)
    (hwf : w.WF kBufSize) (hs : Device.Succeeds dev)
    (hlen : w.pos_ + data.length ≤ dev.length) :
    ∃ w1 file1 dev1, w.Append kBufSize data file dev = .done (Status.ok, w1, file1, dev1) ∧
      w1.WF kBufSize ∧ w1.filename_ = w.filename_ ∧
      file1.contents ++ w1.staged = file.contents ++ w.staged ++ data ∧
      dev1 <:+ dev ∧ w1.pos_ + dev.length ≤ dev1.length + (w.pos_ + data.length) := by
  obtain ⟨hbuf, hpos⟩ := hwf
  by_cases hfit : data.length ≤ kBufSize - w.pos_
  · -- the whole block fits
    have hcopy : min data.length (kBufSize - w.pos_) = data.length := Nat.min_eq_left hfit
    refine ⟨{ w with buf_ := memcpy w.buf_ w.pos_ data data.length,
                     pos_ := w.pos_ + data.length },
      file, dev, ?_, ?_, rfl, ?_, List.suffix_refl _, ?_⟩
    · unfold PmemWritableFile.Append
      simp only [hcopy, Nat.sub_self, if_true]
    · refine ⟨?_, ?_⟩
      · show (memcpy w.buf_ w.pos_ data data.length).length = kBufSize
        rw [memcpy_length _ _ _ _ (by omega) (le_refl _)]
        exact hbuf
      · show w.pos_ + data.length ≤ kBufSize
        omega
    · show file.contents ++ (memcpy w.buf_ w.pos_ data data.length).take
          (w.pos_ + data.length) = file.contents ++ w.buf_.take w.pos_ ++ data
      rw [memcpy_take _ _ _ _ (by omega) (le_refl _), List.take_length, List.append_assoc]
    · show w.pos_ + data.length + dev.length ≤ dev.length + (w.pos_ + data.length)
      omega
  · -- the buffer fills up and bytes remain
    have hcopy : min data.length (kBufSize - w.pos_) = kBufSize - w.pos_ :=
      Nat.min_eq_right (by omega)
    have hrest : ¬ (data.length - (kBufSize - w.pos_) = 0) := by omega
    let w1 : PmemWritableFile :=
      { w with buf_ := memcpy w.buf_ w.pos_ data (kBufSize - w.pos_),
               pos_ := w.pos_ + (kBufSize - w.pos_) }
    have hw1buf : w1.buf_.length = kBufSize := by
      show (memcpy w.buf_ w.pos_ data (kBufSize - w.pos_)).length = kBufSize
      rw [memcpy_length _ _ _ _ (by omega) (by omega)]
      exact hbuf
    have hw1staged : w1.staged = w.staged ++ data.take (kBufSize - w.pos_) := by
      show (memcpy w.buf_ w.pos_ data (kBufSize - w.pos_)).take
          (w.pos_ + (kBufSize - w.pos_)) = _
      rw [memcpy_take _ _ _ _ (by omega) (by omega)]
      rfl
    have hw1len : w1.staged.length = kBufSize := by
      have hw1wf : w1.WF kBufSize := by
        refine ⟨hw1buf, ?_⟩
        show w.pos_ + (kBufSize - w.pos_) ≤ kBufSize
        omega
      rw [PmemWritableFile.staged_length hw1wf]
      show w.pos_ + (kBufSize - w.pos_) = kBufSize
      omega
    obtain ⟨dev1, hfl, hsuf1, hcnt1⟩ :=
      PmemWritableFile.FlushBuffered_of_succeeds w1 file dev hs (by omega)
    have hs1 : Device.Succeeds dev1 := hs.of_suffix hsuf1
    by_cases hsmall : data.length - (kBufSize - w.pos_) < kBufSize
    · -- the remainder goes to the buffer
      refine ⟨{ w1 with buf_ := memcpy w1.buf_ 0 (data.drop (kBufSize - w.pos_))
                            (data.length - (kBufSize - w.pos_)),
                        pos_ := data.length - (kBufSize - w.pos_) },
        ⟨file.contents ++ w1.staged⟩, dev1, ?_, ?_, rfl, ?_, hsuf1, ?_⟩
      · unfold PmemWritableFile.Append
        simp only [hcopy, hrest, if_false]
        rw [hfl]
        simp only [Run.bind_done, Status.isOk, Bool.not_true, Bool.false_eq_true, if_false,
          hsmall, if_true]
      · refine ⟨?_, ?_⟩
        · show (memcpy w1.buf_ 0 (data.drop (kBufSize - w.pos_))
            (data.length - (kBufSize - w.pos_))).length = kBufSize
          rw [memcpy_length _ _ _ _ (by omega) (by simp)]
          exact hw1buf
        · show data.length - (kBufSize - w.pos_) ≤ kBufSize
          omega
      · show (file.contents ++ w1.staged) ++ (memcpy w1.buf_ 0 (data.drop (kBufSize - w.pos_))
            (data.length - (kBufSize - w.pos_))).take (data.length - (kBufSize - w.pos_)) = _
        have := memcpy_take w1.buf_ 0 (data.drop (kBufSize - w.pos_))
          (data.length - (kBufSize - w.pos_)) (by omega) (by simp)
        simp only [Nat.zero_add, List.take_zero, List.nil_append] at this
        have h2 : List.take (data.length - (kBufSize - w.pos_))
            (List.drop (kBufSize - w.pos_) data) = List.drop (kBufSize - w.pos_) data :=
          List.take_of_length_le (by simp)
        rw [this, h2, hw1staged, List.append_assoc, List.append_assoc, List.append_assoc,
          List.take_append_drop]
      · show data.length - (kBufSize - w.pos_) + dev.length ≤ dev1.length + (w.pos_ + data.length)
        omega
    · -- the remainder is written directly
      obtain ⟨dev2, hwr, hsuf2, hcnt2⟩ :=
        WriteRaw_of_succeeds w.filename_ dev1 (data.drop (kBufSize - w.pos_))
          ⟨file.contents ++ w1.staged⟩ hs1 (by simp only [List.length_drop]; omega)
      refine ⟨{ w1 with pos_ := 0 },
        ⟨file.contents ++ w1.staged ++ data.drop (kBufSize - w.pos_)⟩, dev2,
        ?_, ?_, rfl, ?_, hsuf2.trans hsuf1, ?_⟩
      · unfold PmemWritableFile.Append
        simp only [hcopy, hrest, if_false]
        rw [hfl]
        simp only [Run.bind_done, Status.isOk, Bool.not_true, Bool.false_eq_true, if_false,
          hsmall]
        rw [hwr]
        rfl
      · exact ⟨hw1buf, Nat.zero_le _⟩
      · show (file.contents ++ w1.staged ++ data.drop (kBufSize - w.pos_)) ++
            w1.buf_.take 0 = _
        rw [hw1staged, List.take_zero, List.append_nil, List.append_assoc, List.append_assoc,
          List.append_assoc, List.take_append_drop]
      · simp only [List.length_drop] at hcnt2
        show 0 + dev.length ≤ dev2.length + (w.pos_ + data.length)
        omega

/-- `FlushBuffered` returns exactly when its `WriteRaw` does, and leaves
`pos_ = 0` with the buffer as it was. -/
theorem PmemWritableFile.FlushBuffered_done (w : PmemWritableFile) (file : PmemFile)
    (dev : Device) (s : Status) (w1 : PmemWritableFile) (file1 : PmemFile) (dev1 : Device)
    (h : w.FlushBuffered file dev = .done (s, w1, file1, dev1)) :
    WriteRaw w.filename_ dev w.staged file = .done (s, file1, dev1) ∧
      w1 = { w with pos_ := 0 } := by
  unfold PmemWritableFile.FlushBuffered at h
  unfold PmemWritableFile.staged
  cases hw : WriteRaw w.filename_ dev (w.buf_.take w.pos_) file with
  | done a =>
    obtain ⟨s2, file2, dev2⟩ := a
    rw [hw] at h
    simp only [Run.bind_done, Run.done.injEq, Prod.mk.injEq] at h
    obtain ⟨rfl, rfl, rfl, rfl⟩ := h
    exact ⟨rfl, rfl⟩
  | pending => rw [hw] at h; simp [Run.bind] at h
  | undefined => rw [hw] at h; simp [Run.bind] at h
  | threw => rw [hw] at h; simp [Run.bind] at h

/-- `Append` keeps the representation invariant, whatever the durable appends
do. -/
theorem PmemWritableFile.Append_WF (kBufSize : Nat) (w : PmemWritableFile)
    (data : List Byte) (file : PmemFile) (dev : Device) (s : Status)
    (w1 : PmemWritableFile) (file1 : PmemFile) (dev1 : Device)
    (hwf : w.WF kBufSize)
    (h : w.Append kBufSize data file dev = .done (s, w1, file1, dev1)) :
    w1.WF kBufSize := by
  obtain ⟨hbuf, hpos⟩ := hwf
  have hcl : min data.length (kBufSize - w.pos_) ≤ data.length := Nat.min_le_left _ _
  have hcr : min data.length (kBufSize - w.pos_) ≤ kBufSize - w.pos_ := Nat.min_le_right _ _
  have hb1 : (memcpy w.buf_ w.pos_ data (min data.length (kBufSize - w.pos_))).length =
      kBufSize := by
    rw [memcpy_length _ _ _ _ (by omega) hcl]
    exact hbuf
  unfold PmemWritableFile.Append at h
  simp only [] at h
  split at h
  · simp only [Run.done.injEq, Prod.mk.injEq] at h
    obtain ⟨_, rfl, _, _⟩ := h
    exact ⟨hb1, by show w.pos_ + min data.length (kBufSize - w.pos_) ≤ kBufSize; omega⟩
  · cases hf : PmemWritableFile.FlushBuffered
        { w with buf_ := memcpy w.buf_ w.pos_ data (min data.length (kBufSize - w.pos_)),
                 pos_ := w.pos_ + min data.length (kBufSize - w.pos_) } file dev with
    | done a =>
      obtain ⟨s2, w2, file2, dev2⟩ := a
      obtain ⟨_, hw2⟩ := PmemWritableFile.FlushBuffered_done _ _ _ _ _ _ _ hf
      rw [hf] at h
      simp only [Run.bind_done] at h
      have hwf2 : w2.WF kBufSize := by
        rw [hw2]
        exact ⟨hb1, Nat.zero_le _⟩
      split at h
      · simp only [Run.done.injEq, Prod.mk.injEq] at h
        obtain ⟨_, rfl, _, _⟩ := h
        exact hwf2
      · split at h
        · rename_i hsmall
          simp only [Run.done.injEq, Prod.mk.injEq] at h
          obtain ⟨_, rfl, _, _⟩ := h
          refine ⟨?_, Nat.le_of_lt hsmall⟩
          show (memcpy w2.buf_ 0 _ _).length = kBufSize
          rw [memcpy_length _ _ _ _ (by rw [hwf2.1]; omega) (by simp)]
          exact hwf2.1
        · cases hr : WriteRaw w2.filename_ dev2
              (List.drop (min data.length (kBufSize - w.pos_)) data) file2 with
          | done a3 =>
            rw [hr] at h
            simp only [Run.bind_done, Run.done.injEq, Prod.mk.injEq] at h
            obtain ⟨_, rfl, _, _⟩ := h
            exact hwf2
          | pending => rw [hr] at h; simp [Run.bind] at h
          | undefined => rw [hr] at h; simp [Run.bind] at h
          | threw => rw [hr] at h; simp [Run.bind] at h
    | pending => rw [hf] at h; simp [Run.bind] at h
    | undefined => rw [hf] at h; simp [Run.bind] at h
    | threw => rw [hf] at h; simp [Run.bind] at h

/-- A sequence of `Append` calls on a device whose appends all succeed: every
call returns OK and the durable content followed by the staged bytes grows by
the concatenation of the blocks. -/
theorem PmemWritableFile.AppendAll_of_succeeds (kBufSize : Nat) :
    ∀ (ds : List (List Byte)) (w : PmemWritableFile) (file : PmemFile) (dev : Device),
      w.WF kBufSize → Device.Succeeds dev → w.pos_ + ds.flatten.length ≤ dev.length →
      ∃ w1 file1 dev1,
        w.AppendAll kBufSize ds file dev =
          .done (List.replicate ds.length Status.ok, w1, file1, dev1) ∧
        w1.WF kBufSize ∧
        file1.contents ++ w1.staged = file.contents ++ w.staged ++ ds.flatten ∧
        dev1 <:+ dev ∧ w1.pos_ ≤ dev1.length := by
  intro ds
  induction ds with
  | nil =>
    intro w file dev hwf _ hlen
    refine ⟨w, file, dev, rfl, hwf, by simp, List.suffix_refl _, ?_⟩
    simp only [List.flatten_nil, List.length_nil] at hlen
    omega
  | cons d ds ih =>
    intro w file dev hwf hs hlen
    simp only [List.flatten_cons, List.length_append] at hlen
    obtain ⟨w1, file1, dev1, h1, hwf1, _, hc1, hsuf1, hcnt1⟩ :=
      PmemWritableFile.Append_of_succeeds kBufSize w d file dev hwf hs (by omega)
    obtain ⟨w2, file2, dev2, h2, hwf2, hc2, hsuf2, hcnt2⟩ :=
      ih w1 file1 dev1 hwf1 (hs.of_suffix hsuf1) (by omega)
    refine ⟨w2, file2, dev2, ?_, hwf2, ?_, hsuf2.trans hsuf1, hcnt2⟩
    · simp only [PmemWritableFile.AppendAll, h1, Run.bind_done, h2, List.length_cons,
        List.replicate_succ]
    · rw [hc2, hc1, List.flatten_cons]
      simp only [List.append_assoc]

theorem Device.succeeds_takesAll (k : Nat) : Device.Succeeds (List.replicate k takesAll) := by
  intro b hb n hn
  rw [List.eq_of_mem_replicate hb]
  exact ⟨n, rfl, hn, le_refl _⟩

theorem Device.Valid.valid_tail {b : AppendBehaviour} {dev : Device}
    (h : Device.Valid (b :: dev)) : Device.Valid dev :=
  fun c hc => h c (List.mem_cons_of_mem _ hc)

/-- On the outcomes the specification lists, `WriteRaw` has defined behaviour
and throws nothing. -/
theorem WriteRaw_defined (fn : String) :
    ∀ (dev : Device) (p : List Byte) (file : PmemFile), Device.Valid dev →
      WriteRaw fn dev p file ≠ .undefined ∧ WriteRaw fn dev p file ≠ .threw := by
  intro dev
  induction dev with
  | nil =>
    intro p file _
    cases p <;> simp [WriteRaw]
  | cons b dev ih =>
    intro p file hv
    cases p with
    | nil => simp [WriteRaw_nil]
    | cons x xs =>
      have hb := hv b (List.mem_cons_self _ _) (xs.length + 1) (by omega)
      rw [WriteRaw_cons]
      cases hbn : b (xs.length + 1) with
      | wrote r =>
        rw [hbn] at hb
        obtain ⟨_, hr⟩ := hb
        simp only [hr, if_true]
        exact ih _ _ hv.valid_tail
      | failed e =>
        by_cases he : e = EINTR
        · simp only [he, if_true]
          exact ih _ _ hv.valid_tail
        · simp [he]

/-- A whole session on a device whose appends all succeed, from a writer with
an empty buffer: every `Append` and `Close` return OK and the content grows by
the concatenation of the blocks. -/
theorem PmemWritableFile.AppendAllThenClose_of_succeeds (kBufSize : Nat)
    (w : PmemWritableFile) (ds : List (List Byte)) (file : PmemFile) (dev : Device)
    (hwf : w.WF kBufSize) (hpos : w.pos_ = 0)
    (hs : Device.Succeeds dev) (hlen : ds.flatten.length ≤ dev.length) :
    w.AppendAllThenClose kBufSize ds file dev =
      .done (List.replicate ds.length Status.ok, Status.ok, ⟨file.contents ++ ds.flatten⟩) := by
  obtain ⟨w1, file1, dev1, h1, hwf1, hc1, hsuf1, hcnt1⟩ :=
    PmemWritableFile.AppendAll_of_succeeds kBufSize ds w file dev hwf hs (by omega)
  obtain ⟨dev2, h2, _, _⟩ :=
    PmemWritableFile.FlushBuffered_of_succeeds w1 file1 dev1 (hs.of_suffix hsuf1)
      (by rw [PmemWritableFile.staged_length hwf1]; exact hcnt1)
  have hst : w.staged = [] := by simp [PmemWritableFile.staged, hpos]
  rw [hst, List.append_nil] at hc1
  simp only [PmemWritableFile.AppendAllThenClose, h1, Run.bind_done, PmemWritableFile.Close,
    h2, hc1]

/-! ## Lemmas on the environment -/

theorem Pmem.registry_eq_some {world : Pmem} {entries : List String}
    (h : world.registry = some entries) : world.directory = some ⟨some ⟨entries⟩⟩ := by
  unfold Pmem.registry at h
  split at h
  · rename_i d hd
    simp only [Option.some.injEq] at h
    rw [hd, ← h]
  · exact absurd h (by simp)

/-- What opening a writer does to the durable state, when the registry is
allocated and no pool operation throws. -/
theorem PmemEnv.NewWritableFile_ok (kBufSize : Nat) (world : Pmem) (fname : String)
    (entries : List String) (hreg : world.registry = some entries) :
    ∃ world1, PmemEnv.NewWritableFile kBufSize world fname true =
        .done (Status.ok, (PmemWritableFile.new kBufSize fname ⟨none⟩).1, world1) ∧
      world1.registry = some (entries ++ [fname]) ∧
      world1.files fname = some ⟨some PmemFile.fresh⟩ ∧
      (∀ q, q ≠ fname → world1.files q = world.files q) := by
  have hdir := Pmem.registry_eq_some hreg
  cases h : world.files fname with
  | none =>
    refine ⟨{ files := fun q => if q = fname then some ⟨some PmemFile.fresh⟩
                else if q = fname then some ⟨none⟩ else world.files q,
              directory := some ⟨some ⟨entries ++ [fname]⟩⟩ }, ?_, rfl, by simp, ?_⟩
    · simp [PmemEnv.NewWritableFile, Pmem.createOrOpen, h, Run.bind, PmemWritableFile.new,
        Pmem.registerRoot, Pmem.setFile, hdir, PmemDirectory.Append]
    · intro q hq
      simp [hq]
  | some root =>
    refine ⟨{ files := fun q => if q = fname then some ⟨some PmemFile.fresh⟩
                else world.files q,
              directory := some ⟨some ⟨entries ++ [fname]⟩⟩ }, ?_, rfl, by simp, ?_⟩
    · simp [PmemEnv.NewWritableFile, Pmem.createOrOpen, h, Run.bind, PmemWritableFile.new,
        Pmem.registerRoot, Pmem.setFile, hdir, PmemDirectory.Append]
    · intro q hq
      simp [hq]

theorem PmemEnv.NewAppendableFile_eq (kBufSize : Nat) (world : Pmem) (fname : String)
    (poolOk : Bool) :
    PmemEnv.NewAppendableFile kBufSize world fname poolOk =
      PmemEnv.NewWritableFile kBufSize world fname poolOk := rfl

/-- What opening a reader does to the durable state when no pool operation
throws: a pool with a null file object appears at the path if nothing was
there, and nothing else changes. -/
theorem PmemEnv.NewSequentialFile_ok (world : Pmem) (fname : String) :
    ∃ world1, PmemEnv.NewSequentialFile world fname true =
        .done (Status.ok, ⟨fname⟩, world1) ∧
      world1.directory = world.directory ∧
      world1.files fname = some ((world.files fname).getD ⟨none⟩) ∧
      (∀ q, q ≠ fname → world1.files q = world.files q) := by
  cases h : world.files fname with
  | none =>
    refine ⟨world.setFile fname (some ⟨none⟩), ?_, rfl, by simp [Pmem.setFile], ?_⟩
    · simp [PmemEnv.NewSequentialFile, Pmem.createOrOpen, h, Run.bind]
    · intro q hq
      simp [Pmem.setFile, hq]
  | some root =>
    refine ⟨world, ?_, rfl, by simp [h], fun _ _ => rfl⟩
    simp [PmemEnv.NewSequentialFile, Pmem.createOrOpen, h, Run.bind]

theorem PmemEnv.NewRandomAccessFile_ok (world : Pmem) (fname : String) :
    ∃ world1, PmemEnv.NewRandomAccessFile world fname true =
        .done (Status.ok, ⟨fname⟩, world1) ∧
      world1.directory = world.directory ∧
      world1.files fname = some ((world.files fname).getD ⟨none⟩) ∧
      (∀ q, q ≠ fname → world1.files q = world.files q) := by
  cases h : world.files fname with
  | none =>
    refine ⟨world.setFile fname (some ⟨none⟩), ?_, rfl, by simp [Pmem.setFile], ?_⟩
    · simp [PmemEnv.NewRandomAccessFile, Pmem.createOrOpen, h, Run.bind]
    · intro q hq
      simp [Pmem.setFile, hq]
  | some root =>
    refine ⟨world, ?_, rfl, by simp [h], fun _ _ => rfl⟩
    simp [PmemEnv.NewRandomAccessFile, Pmem.createOrOpen, h, Run.bind]

theorem PmemEnv.DeleteFile_directory (world : Pmem) (fname : String) (osError : Option Int) :
    (PmemEnv.DeleteFile world fname osError).2.directory = world.directory := by
  unfold PmemEnv.DeleteFile
  split
  · rfl
  · cases osError <;> rfl

theorem Pmem.registry_congr {w1 w2 : Pmem} (h : w1.directory = w2.directory) :
    w1.registry = w2.registry := by
  simp [Pmem.registry, h]

/-- One call on an environment whose registry is allocated, when no pool
operation throws: the call returns, and the registry afterwards is the
registry before, followed by the path of the call if it opens a writer. -/
theorem PmemEnv.apply_registry (kBufSize : Nat) (world : Pmem) (op : EnvOp)
    (entries : List String) (hreg : world.registry = some entries)
    (hok : op.poolOk = true) :
    ∃ world1, PmemEnv.apply kBufSize world op = .done world1 ∧
      world1.registry = some (entries ++ op.writerOpen.toList) := by
  cases op with
  | newWritableFile fname ok =>
    simp only [EnvOp.poolOk] at hok
    subst hok
    obtain ⟨w1, h1, h2, _⟩ := PmemEnv.NewWritableFile_ok kBufSize world fname entries hreg
    exact ⟨w1, by simp [PmemEnv.apply, h1, Run.bind], by simpa [EnvOp.writerOpen] using h2⟩
  | newAppendableFile fname ok =>
    simp only [EnvOp.poolOk] at hok
    subst hok
    obtain ⟨w1, h1, h2, _⟩ := PmemEnv.NewWritableFile_ok kBufSize world fname entries hreg
    rw [← PmemEnv.NewAppendableFile_eq] at h1
    exact ⟨w1, by simp [PmemEnv.apply, h1, Run.bind], by simpa [EnvOp.writerOpen] using h2⟩
  | newSequentialFile fname ok =>
    simp only [EnvOp.poolOk] at hok
    subst hok
    obtain ⟨w1, h1, h2, _⟩ := PmemEnv.NewSequentialFile_ok world fname
    refine ⟨w1, by simp [PmemEnv.apply, h1, Run.bind], ?_⟩
    rw [Pmem.registry_congr h2, hreg]
    simp [EnvOp.writerOpen]
  | newRandomAccessFile fname ok =>
    simp only [EnvOp.poolOk] at hok
    subst hok
    obtain ⟨w1, h1, h2, _⟩ := PmemEnv.NewRandomAccessFile_ok world fname
    refine ⟨w1, by simp [PmemEnv.apply, h1, Run.bind], ?_⟩
    rw [Pmem.registry_congr h2, hreg]
    simp [EnvOp.writerOpen]
  | deleteFile fname osError =>
    refine ⟨(PmemEnv.DeleteFile world fname osError).2, rfl, ?_⟩
    rw [Pmem.registry_congr (PmemEnv.DeleteFile_directory world fname osError), hreg]
    simp [EnvOp.writerOpen]

/-- A sequence of calls on an environment whose registry is allocated, when no
pool operation throws: the registry afterwards is the registry before,
followed by the paths of the writer-opening calls in order. -/
theorem PmemEnv.applyAll_registry (kBufSize : Nat) :
    ∀ (ops : List EnvOp) (world : Pmem) (entries : List String),
      world.registry = some entries → (∀ op ∈ ops, op.poolOk = true) →
      ∃ world1, PmemEnv.applyAll kBufSize world ops = .done world1 ∧
        world1.registry = some (entries ++ ops.filterMap EnvOp.writerOpen) := by
  intro ops
  induction ops with
  | nil =>
    intro world entries hreg _
    exact ⟨world, rfl, by simpa using hreg⟩
  | cons op ops ih =>
    intro world entries hreg hok
    obtain ⟨w1, h1, h2⟩ := PmemEnv.apply_registry kBufSize world op entries hreg
      (hok op (List.mem_cons_self _ _))
    obtain ⟨w2, h3, h4⟩ := ih w1 _ h2 (fun o ho => hok o (List.mem_cons_of_mem _ ho))
    refine ⟨w2, by simp [PmemEnv.applyAll, h1, Run.bind, h3], ?_⟩
    rw [h4, List.append_assoc]
    congr 2
    cases hw : op.writerOpen <;> simp [List.filterMap_cons, hw]

/-! ## Lemmas on the lock table and the queue -/

theorem PosixLockTable.Insert_absent (t : PosixLockTable) (fname : String)
    (h : fname ∉ t.locked_files_) :
    t.Insert fname = (true, ⟨fname :: t.locked_files_⟩) := by
  simp [PosixLockTable.Insert, h]

theorem PosixLockTable.Insert_present (t : PosixLockTable) (fname : String)
    (h : fname ∈ t.locked_files_) : t.Insert fname = (false, t) := by
  simp [PosixLockTable.Insert, h]

theorem PosixLockTable.not_mem_Remove (t : PosixLockTable) (fname : String) :
    fname ∉ (t.Remove fname).locked_files_ := by
  simp [PosixLockTable.Remove]

/-- The invariant of the queue state machine: the executed items followed by
the queued ones are the scheduled ones. -/
theorem BGState.step_invariant (st : BGState) (e : BGEvent)
    (h : st.executed ++ st.queue_ = st.scheduled) :
    (st.step e).executed ++ (st.step e).queue_ = (st.step e).scheduled := by
  cases e with
  | schedule function arg =>
    simp only [BGState.step, PmemEnv.Schedule]
    rw [← List.append_assoc, h]
  | worker =>
    simp only [BGState.step, PmemEnv.BGThread]
    split
    · exact h
    · split
      · exact h
      · rename_i front rest hq
        rw [hq] at h
        simpa using h

theorem BGState.run_invariant (events : List BGEvent) :
    ∀ st : BGState, st.executed ++ st.queue_ = st.scheduled →
      (st.run events).executed ++ (st.run events).queue_ = (st.run events).scheduled := by
  induction events with
  | nil => intro st h; exact h
  | cons e es ih =>
    intro st h
    exact ih (st.step e) (BGState.step_invariant st e h)

theorem BGState.run_started (events : List BGEvent) :
    ∀ st : BGState, (st.queue_ ≠ [] → st.started_bgthread_ = true) →
      ((st.run events).queue_ ≠ [] → (st.run events).started_bgthread_ = true) := by
  induction events with
  | nil => intro st h; exact h
  | cons e es ih =>
    intro st h
    apply ih (st.step e)
    cases e with
    | schedule function arg => intro _; rfl
    | worker =>
      by_cases hst : st.started_bgthread_ = true
      · intro _
        cases hq : st.queue_ with
        | nil => simp [BGState.step, PmemEnv.BGThread, hst, hq]
        | cons front rest => simp [BGState.step, PmemEnv.BGThread, hst, hq]
      · have : st.step BGEvent.worker = st := by simp [BGState.step, PmemEnv.BGThread, hst]
        rw [this]
        exact h

/-- Worker iterations, as many as there are queued items, empty the queue and
execute the queued items in order. -/
theorem BGState.drain :
    ∀ (q : List BGItem) (st : BGState), st.started_bgthread_ = true → st.queue_ = q →
      (st.run (List.replicate q.length BGEvent.worker)).queue_ = [] ∧
      (st.run (List.replicate q.length BGEvent.worker)).executed = st.executed ++ q ∧
      (st.run (List.replicate q.length BGEvent.worker)).scheduled = st.scheduled := by
  intro q
  induction q with
  | nil => intro st _ hq; simp [BGState.run, hq]
  | cons x xs ih =>
    intro st hs hq
    have hstep : st.step BGEvent.worker =
        { st with queue_ := xs, executed := st.executed ++ [x] } := by
      simp [BGState.step, PmemEnv.BGThread, hs, hq]
    have := ih (st.step BGEvent.worker) (by rw [hstep]; exact hs) (by rw [hstep])
    simp only [List.length_cons, List.replicate_succ, BGState.run, List.foldl_cons]
    simp only [BGState.run] at this
    rw [hstep] at this ⊢
    simpa using this

/-! ## Lemmas on failed calls -/

theorem PosixLockTable.Remove_cons_absent (l : List String) (fname : String)
    (h : fname ∉ l) :
    PosixLockTable.Remove ⟨fname :: l⟩ fname = ⟨l⟩ := by
  simp only [PosixLockTable.Remove, PosixLockTable.mk.injEq]
  rw [List.filter_cons_of_neg (by simp)]
  apply List.filter_eq_self.mpr
  intro q hq
  have : q ≠ fname := fun e => h (e ▸ hq)
  simpa using this

/-- With `pos_ = 0` a flush issues no durable append: it returns OK at once
and leaves the writer, the content and the outcomes as they are. -/
theorem PmemWritableFile.FlushBuffered_empty (w : PmemWritableFile) (file : PmemFile)
    (dev : Device) (h : w.pos_ = 0) :
    w.FlushBuffered file dev = .done (Status.ok, w, file, dev) := by
  unfold PmemWritableFile.FlushBuffered
  rw [h, List.take_zero, WriteRaw_nil]
  simp only [Run.bind_done]
  cases w
  simp only [] at h
  subst h
  rfl

/-- An `Append` that returns an error leaves `pos_ = 0`. -/
theorem PmemWritableFile.Append_error_pos (kBufSize : Nat) (w : PmemWritableFile)
    (data : List Byte) (file : PmemFile) (dev : Device) (s : Status)
    (w1 : PmemWritableFile) (file1 : PmemFile) (dev1 : Device)
    (h : w.Append kBufSize data file dev = .done (s, w1, file1, dev1))
    (hs : s ≠ Status.ok) : w1.pos_ = 0 := by
  unfold PmemWritableFile.Append at h
  simp only [] at h
  split at h
  · simp only [Run.done.injEq, Prod.mk.injEq] at h
    exact absurd h.1.symm hs
  · cases hf : PmemWritableFile.FlushBuffered
        { w with buf_ := memcpy w.buf_ w.pos_ data (min data.length (kBufSize - w.pos_)),
                 pos_ := w.pos_ + min data.length (kBufSize - w.pos_) } file dev with
    | done a =>
      obtain ⟨s2, w2, file2, dev2⟩ := a
      obtain ⟨_, hw2⟩ := PmemWritableFile.FlushBuffered_done _ _ _ _ _ _ _ hf
      rw [hf] at h
      simp only [Run.bind_done] at h
      have hp2 : w2.pos_ = 0 := by rw [hw2]
      split at h
      · simp only [Run.done.injEq, Prod.mk.injEq] at h
        obtain ⟨_, rfl, _, _⟩ := h
        exact hp2
      · split at h
        · simp only [Run.done.injEq, Prod.mk.injEq] at h
          exact absurd h.1.symm hs
        · cases hr : WriteRaw w2.filename_ dev2
              (List.drop (min data.length (kBufSize - w.pos_)) data) file2 with
          | done a3 =>
            rw [hr] at h
            simp only [Run.bind_done, Run.done.injEq, Prod.mk.injEq] at h
            obtain ⟨_, rfl, _, _⟩ := h
            exact hp2
          | pending => rw [hr] at h; simp [Run.bind] at h
          | undefined => rw [hr] at h; simp [Run.bind] at h
          | threw => rw [hr] at h; simp [Run.bind] at h
    | pending => rw [hf] at h; simp [Run.bind] at h
    | undefined => rw [hf] at h; simp [Run.bind] at h
    | threw => rw [hf] at h; simp [Run.bind] at h

/-! ## The properties of the specification -/

/-- C1 (append round trip): blocks `d1 .. dk` of any lengths are appended in
order to a freshly constructed writer, on a durable heap whose every append
succeeds (taking between one byte and the whole request), with at least as
many outcomes listed as there are bytes.  The constructor leaves an empty File
Content Object in the pool, every `Append` returns OK, `Close` returns OK, and
the durable content afterwards is exactly `d1 ++ ... ++ dk`.  This holds for
every buffer capacity `kBufSize`, so for every position of a split relative to
it. -/
theorem C1_append_round_trip (kBufSize : Nat) (fname : String) (pool : rootFile)
    (ds : List (List Byte)) (dev : Device)
    (hs : Device.Succeeds dev) (hlen : ds.flatten.length ≤ dev.length) :
    (PmemWritableFile.new kBufSize fname pool).2.file = some PmemFile.fresh ∧
    (PmemWritableFile.new kBufSize fname pool).1.AppendAllThenClose kBufSize ds
        PmemFile.fresh dev =
      .done (List.replicate ds.length Status.ok, Status.ok, ⟨ds.flatten⟩) := by
  refine ⟨rfl, ?_⟩
  have h := PmemWritableFile.AppendAllThenClose_of_succeeds kBufSize
    (PmemWritableFile.new kBufSize fname pool).1 ds PmemFile.fresh dev
    (PmemWritableFile.new_WF kBufSize fname pool) rfl hs hlen
  simpa [PmemFile.fresh] using h

/-- C1 at concrete inputs: with a buffer of 4 bytes, blocks of 4, 3, 5 and 1
bytes (splits at, before and after the capacity); and the scenario of the
specification, `hello` then ` world` with a buffer of 65536 bytes. -/
theorem C1_append_round_trip_witness :
    (Device.Succeeds (List.replicate 13 takesAll) ∧
     [[1, 2, 3, 4], [5, 6, 7], [8, 9, 10, 11, 12], [13]].flatten.length ≤
       (List.replicate 13 takesAll).length ∧
     (PmemWritableFile.new 4 "A" ⟨none⟩).1.AppendAllThenClose 4
        [[1, 2, 3, 4], [5, 6, 7], [8, 9, 10, 11, 12], [13]] PmemFile.fresh
        (List.replicate 13 takesAll) =
      .done ([Status.ok, Status.ok, Status.ok, Status.ok], Status.ok,
        ⟨[1, 2, 3, 4, 5, 6, 7, 8, 9, 10, 11, 12, 13]⟩)) ∧
    (PmemWritableFile.new 65536 "A" ⟨none⟩).1.AppendAllThenClose 65536
        [[104, 101, 108, 108, 111], [32, 119, 111, 114, 108, 100]] PmemFile.fresh
        (List.replicate 11 takesAll) =
      .done ([Status.ok, Status.ok], Status.ok,
        ⟨[104, 101, 108, 108, 111, 32, 119, 111, 114, 108, 100]⟩) :=
  ⟨⟨Device.succeeds_takesAll 13, by decide,
    (C1_append_round_trip 4 "A" ⟨none⟩ [[1, 2, 3, 4], [5, 6, 7], [8, 9, 10, 11, 12], [13]]
      (List.replicate 13 takesAll) (Device.succeeds_takesAll 13) (by decide)).2⟩,
   (C1_append_round_trip 65536 "A" ⟨none⟩
      [[104, 101, 108, 108, 111], [32, 119, 111, 114, 108, 100]]
      (List.replicate 11 takesAll) (Device.succeeds_takesAll 11) (by decide)).2⟩

/-- C2 (lock exclusivity): for every path `p` not yet in the lock table and
every answer of the operating system in which `open` and the record lock
succeed, `LockFile(p)` returns OK with a lock; a second `LockFile(p)` while it
is held returns `IOError("lock p", "already held by process")`, which no
`PosixError` equals, with a null lock and the table unchanged; and after
`UnlockFile` on the first lock, whatever the record unlock answers, a third
`LockFile(p)` returns OK with a lock. -/
theorem C2_lock_exclusivity (locks_ : PosixLockTable) (p : String) (os1 os2 os3 : LockOs)
    (unlockResult errno : Int)
    (hfree : p ∉ locks_.locked_files_)
    (h1 : 0 ≤ os1.fd ∧ os1.lockResult ≠ -1)
    (h2 : 0 ≤ os2.fd ∧ os2.lockResult ≠ -1)
    (h3 : 0 ≤ os3.fd ∧ os3.lockResult ≠ -1) :
    ∃ locks1 locks2 locks3,
      PmemEnv.LockFile locks_ p os1 = (Status.ok, some ⟨os1.fd, p⟩, locks1) ∧
      PmemEnv.LockFile locks1 p os2 =
        (Status.ioError ("lock " ++ p) "already held by process", none, locks1) ∧
      (∀ context e, Status.ioError ("lock " ++ p) "already held by process" ≠
        PosixError context e) ∧
      (PmemEnv.UnlockFile locks1 ⟨os1.fd, p⟩ unlockResult errno).2 = locks2 ∧
      PmemEnv.LockFile locks2 p os3 = (Status.ok, some ⟨os3.fd, p⟩, locks3) := by
  obtain ⟨h1a, h1b⟩ := h1
  obtain ⟨h2a, h2b⟩ := h2
  obtain ⟨h3a, h3b⟩ := h3
  have n1 : ¬ os1.fd < 0 := by omega
  have n2 : ¬ os2.fd < 0 := by omega
  have n3 : ¬ os3.fd < 0 := by omega
  refine ⟨⟨p :: locks_.locked_files_⟩, PosixLockTable.Remove ⟨p :: locks_.locked_files_⟩ p,
    ⟨p :: (PosixLockTable.Remove ⟨p :: locks_.locked_files_⟩ p).locked_files_⟩,
    ?_, ?_, ?_, rfl, ?_⟩
  · simp [PmemEnv.LockFile, n1, PosixLockTable.Insert_absent _ _ hfree, h1b]
  · simp [PmemEnv.LockFile, n2, PosixLockTable.Insert_present]
  · intro context e h
    simp [PosixError] at h
  · simp [PmemEnv.LockFile, n3,
      PosixLockTable.Insert_absent _ _ (PosixLockTable.not_mem_Remove _ p), h3b]

/-- C2 at a concrete input: an empty lock table, the path `LOCK`, descriptors
3, 4 and 5, and a record unlock that fails. -/
theorem C2_lock_exclusivity_witness :
    ∃ locks1 locks2 locks3,
      PmemEnv.LockFile ⟨[]⟩ "LOCK" ⟨3, 0, 0, 0⟩ = (Status.ok, some ⟨3, "LOCK"⟩, locks1) ∧
      PmemEnv.LockFile locks1 "LOCK" ⟨4, 0, 0, 0⟩ =
        (Status.ioError ("lock " ++ "LOCK") "already held by process", none, locks1) ∧
      (∀ context e, Status.ioError ("lock " ++ "LOCK") "already held by process" ≠
        PosixError context e) ∧
      (PmemEnv.UnlockFile locks1 ⟨3, "LOCK"⟩ (-1) 5).2 = locks2 ∧
      PmemEnv.LockFile locks2 "LOCK" ⟨5, 0, 0, 0⟩ = (Status.ok, some ⟨5, "LOCK"⟩, locks3) :=
  C2_lock_exclusivity ⟨[]⟩ "LOCK" ⟨3, 0, 0, 0⟩ ⟨4, 0, 0, 0⟩ ⟨5, 0, 0, 0⟩ (-1) 5
    (by simp) (by decide) (by decide) (by decide)

/-- C3 (task FIFO order): from a newly constructed environment, after every
interleaving of `Schedule` calls and worker iterations, the items executed so
far followed by the items still queued are the items scheduled, in submission
order; so the executed sequence is a prefix of the scheduled one, the two are
equal once the queue is empty, and as many further worker iterations as there
are queued items empty the queue and make them equal.  Scheduling 1, 2, 3 and
letting the worker run gives the log 1, 2, 3. -/
theorem C3_task_fifo_order (events : List BGEvent) :
    (BGState.init.run events).executed ++ (BGState.init.run events).queue_ =
      (BGState.init.run events).scheduled ∧
    (BGState.init.run events).scheduled =
      events.filterMap (fun e => match e with
        | .schedule function arg => some ⟨arg, function⟩
        | .worker => none) ∧
    (BGState.init.run events).executed <+: (BGState.init.run events).scheduled ∧
    ((BGState.init.run events).queue_ = [] →
      (BGState.init.run events).executed = (BGState.init.run events).scheduled) ∧
    (((BGState.init.run events).run
        (List.replicate (BGState.init.run events).queue_.length BGEvent.worker)).queue_ = [] ∧
     ((BGState.init.run events).run
        (List.replicate (BGState.init.run events).queue_.length BGEvent.worker)).executed =
      (BGState.init.run events).scheduled) ∧
    ((BGState.init.run [.schedule 1 0, .schedule 2 0, .worker, .schedule 3 0, .worker,
        .worker]).executed.map BGItem.function = [1, 2, 3]) := by
  have hinv := BGState.run_invariant events BGState.init rfl
  have hsched : ∀ (es : List BGEvent) (st : BGState),
      (st.run es).scheduled = st.scheduled ++ es.filterMap (fun e => match e with
        | .schedule function arg => some ⟨arg, function⟩
        | .worker => none) := by
    intro es
    induction es with
    | nil => intro st; simp [BGState.run]
    | cons e es ih =>
      intro st
      have h := ih (st.step e)
      simp only [BGState.run, List.foldl_cons] at h ⊢
      rw [h]
      cases e with
      | schedule function arg => simp [BGState.step, PmemEnv.Schedule]
      | worker =>
        simp only [BGState.step, PmemEnv.BGThread, List.filterMap_cons]
        split
        · rfl
        · split <;> rfl
  refine ⟨hinv, ?_, ⟨_, hinv⟩, ?_, ?_, by decide⟩
  · simpa [BGState.init] using hsched events BGState.init
  · intro hq
    rw [hq, List.append_nil] at hinv
    exact hinv
  · by_cases hq : (BGState.init.run events).queue_ = []
    · rw [hq]
      simp only [List.length_nil, List.replicate_zero, BGState.run, List.foldl_nil]
      simp only [BGState.run] at hq hinv
      rw [hq, List.append_nil] at hinv
      exact ⟨hq, hinv⟩
    · have hst := BGState.run_started events BGState.init (fun h => absurd rfl h) hq
      obtain ⟨d1, d2, _⟩ := BGState.drain _ (BGState.init.run events) hst rfl
      exact ⟨d1, by rw [d2, hinv]⟩

/-- C7 (write retry and remainder): for every block `p` of `n` bytes and every
sequence of outcomes of the durable append that are counts between 1 and the
request, interruptions or other failures, `WriteRaw` has defined behaviour; a
call that returns has appended a prefix of `p` to the content, the whole of
`p` exactly when the status is OK, and otherwise a proper prefix with the
status `PosixError(filename_, errno)` of a failure other than `EINTR`; after a
partial count `r` the next request is the remaining `n - r` bytes; an
interruption is followed by the same request again; a failure other than
`EINTR` ends the call at once; and when every outcome is a success and there
are `n` of them, the call returns OK. -/
theorem C7_write_retry_and_remainder (fn : String) (dev : Device) (p : List Byte)
    (file : PmemFile) (hv : Device.Valid dev) :
    (WriteRaw fn dev p file ≠ .undefined ∧ WriteRaw fn dev p file ≠ .threw) ∧
    (∀ s file1 dev1, WriteRaw fn dev p file = .done (s, file1, dev1) →
      ∃ k, k ≤ p.length ∧ file1.contents = file.contents ++ p.take k ∧
        ((s = Status.ok ∧ k = p.length) ∨
         (∃ e, e ≠ EINTR ∧ s = PosixError fn e ∧ k < p.length))) ∧
    (∀ b r, b p.length = .wrote r → 0 < r → r ≤ p.length →
      WriteRaw fn (b :: dev) p file =
        WriteRaw fn dev (p.drop r) ⟨file.contents ++ p.take r⟩) ∧
    (∀ b, p ≠ [] → b p.length = .failed EINTR →
      WriteRaw fn (b :: dev) p file = WriteRaw fn dev p file) ∧
    (∀ b e, p ≠ [] → b p.length = .failed e → e ≠ EINTR →
      WriteRaw fn (b :: dev) p file = .done (PosixError fn e, file, dev)) ∧
    (Device.Succeeds dev → p.length ≤ dev.length →
      ∃ dev1, WriteRaw fn dev p file = .done (Status.ok, ⟨file.contents ++ p⟩, dev1)) := by
  refine ⟨WriteRaw_defined fn dev p file hv, ?_, ?_, ?_, ?_, ?_⟩
  · intro s file1 dev1 h
    exact (WriteRaw_done fn dev p file s file1 dev1 h).2
  · intro b r hb hr0 hrn
    cases p with
    | nil => simp at hrn; omega
    | cons x xs =>
      rw [WriteRaw_cons]
      simp only [List.length_cons] at hb hrn
      rw [hb]
      simp only [hrn, if_true]
  · intro b hp hb
    cases p with
    | nil => exact absurd rfl hp
    | cons x xs =>
      rw [WriteRaw_cons]
      simp only [List.length_cons] at hb
      rw [hb]
      simp
  · intro b e hp hb he
    cases p with
    | nil => exact absurd rfl hp
    | cons x xs =>
      rw [WriteRaw_cons]
      simp only [List.length_cons] at hb
      rw [hb]
      simp [he]
  · intro hs hlen
    obtain ⟨dev1, h, _, _⟩ := WriteRaw_of_succeeds fn dev p file hs hlen
    exact ⟨dev1, h⟩

/-- C7 at a concrete input: four bytes against the outcomes one byte, an
interruption, one byte, a failure with error 5; the call returns the error
with the two bytes written. -/
theorem C7_write_retry_and_remainder_witness :
    Device.Valid [takesOne, interrupted, takesOne, failsWith 5, takesAll] ∧
    WriteRaw "A" [takesOne, interrupted, takesOne, failsWith 5, takesAll] [1, 2, 3, 4] ⟨[9]⟩ =
      .done (PosixError "A" 5, ⟨[9, 1, 2]⟩, [takesAll]) ∧
    (∃ k, k ≤ [1, 2, 3, 4].length ∧
      (⟨[9, 1, 2]⟩ : PmemFile).contents = (⟨[9]⟩ : PmemFile).contents ++ [1, 2, 3, 4].take k ∧
      ((PosixError "A" 5 = Status.ok ∧ k = [1, 2, 3, 4].length) ∨
       (∃ e, e ≠ EINTR ∧ PosixError "A" 5 = PosixError "A" e ∧ k < [1, 2, 3, 4].length))) :=
  have hv : Device.Valid [takesOne, interrupted, takesOne, failsWith 5, takesAll] := by
    intro b hb n hn
    simp only [List.mem_cons, List.mem_singleton, List.not_mem_nil, or_false] at hb
    rcases hb with rfl | rfl | rfl | rfl | rfl <;>
      simp [takesOne, interrupted, failsWith, takesAll, AppendOutcome.Valid] <;> omega
  ⟨hv, rfl,
    (C7_write_retry_and_remainder "A" [takesOne, interrupted, takesOne, failsWith 5, takesAll]
      [1, 2, 3, 4] ⟨[9]⟩ hv).2.1 _ _ _ rfl⟩

/-- C4 (registry completeness across restart), evaluated on the code: the
constructor of `PmemEnv` leaves an empty Directory Entry Set whatever the
directory pool held; so after `f1` and `f2` are created for writing (registry
`f1, f2`) and a new `PmemEnv` is constructed on the same directory pool, the
registry is empty. -/
theorem C4_registry_reset_by_constructor :
    (∀ world : Pmem, ∃ world1, PmemEnv.new world true = .done world1 ∧
      world1.registry = some [] ∧ world1.files = world.files) ∧
    ((PmemEnv.new Pmem.empty true).bind fun w =>
        PmemEnv.applyAll 4 w [.newWritableFile "f1" true, .newWritableFile "f2" true]
      ).toOption.bind Pmem.registry = some ["f1", "f2"] ∧
    (((PmemEnv.new Pmem.empty true).bind fun w =>
        PmemEnv.applyAll 4 w [.newWritableFile "f1" true, .newWritableFile "f2" true]
      ).bind fun w => PmemEnv.new w true).toOption.bind Pmem.registry = some [] := by
  refine ⟨fun world => ⟨_, rfl, rfl, rfl⟩, by decide, by decide⟩

/-- C5 (append implies create-or-continue), evaluated on the code: the data
file `A` holds the bytes 1, 2, 3; it is opened with `NewAppendableFile`, the
byte 4 is appended and the writer is closed, every call returning OK; the
durable content of `A` is then the single byte 4.  In general, for every
existing content `C` and every block `D`, the content after such a session is
`D`. -/
theorem C5_appendable_open_discards_content :
    ((Pmem.single "A" [1, 2, 3]).contentAt "A" = some [1, 2, 3] ∧
     (PmemEnv.appendSession 4 (Pmem.single "A" [1, 2, 3]) "A" true [[4]] [takesAll]
       ).toOption.map (fun r => (r.1, r.2.1, r.2.2.contentAt "A")) =
       some ([Status.ok], Status.ok, some [4])) ∧
    (∀ (kBufSize : Nat) (fname : String) (C D : List Byte),
      (Pmem.single fname C).contentAt fname = some C ∧
      (PmemEnv.appendSession kBufSize (Pmem.single fname C) fname true [D]
        (List.replicate D.length takesAll)
       ).toOption.map (fun r => (r.1, r.2.1, r.2.2.contentAt fname)) =
       some ([Status.ok], Status.ok, some D)) := by
  refine ⟨⟨by decide, by decide⟩, ?_⟩
  intro kBufSize fname C D
  refine ⟨by simp [Pmem.single, Pmem.contentAt], ?_⟩
  obtain ⟨world1, h1, _, h3, _⟩ :=
    PmemEnv.NewWritableFile_ok kBufSize (Pmem.single fname C) fname [fname] rfl
  have h2 := PmemWritableFile.AppendAllThenClose_of_succeeds kBufSize
    (PmemWritableFile.new kBufSize fname ⟨none⟩).1 [D] PmemFile.fresh
    (List.replicate D.length takesAll)
    (PmemWritableFile.new_WF kBufSize fname ⟨none⟩) rfl
    (Device.succeeds_takesAll D.length) (by simp)
  rw [PmemEnv.appendSession, PmemEnv.NewAppendableFile_eq, h1]
  simp only [Run.bind_done, h3, h2]
  simp [Run.toOption, Pmem.contentAt, Pmem.setFile, PmemFile.fresh]

/-- C6 as stated fails: on the state with no file at all, `NewSequentialFile`
and `NewRandomAccessFile` of the path `missing` return OK with a handle, and a
pool exists at the path afterwards. -/
theorem C6_read_open_missing_counterexample :
    Pmem.empty.file_exists "missing" = false ∧
    (PmemEnv.NewSequentialFile Pmem.empty "missing" true).toOption.map
        (fun r => (r.1, r.2.1, r.2.2.file_exists "missing")) =
      some (Status.ok, ⟨"missing"⟩, true) ∧
    (PmemEnv.NewRandomAccessFile Pmem.empty "missing" true).toOption.map
        (fun r => (r.1, r.2.1, r.2.2.file_exists "missing")) =
      some (Status.ok, ⟨"missing"⟩, true) := by
  refine ⟨by decide, by decide, by decide⟩

/-- C6 amended (read-open of a missing path creates it): for every path at
which no file exists, `NewSequentialFile` and `NewRandomAccessFile` create a
pool at the path, with no File Content Object yet, and return OK with a handle
on it, leaving every other path and the Directory Registry as they were; when
the pool cannot be created the exception leaves the function and no status is
returned. -/
theorem C6_read_open_missing_creates (world : Pmem) (fname : String)
    (hmissing : world.file_exists fname = false) :
    (∃ world1, PmemEnv.NewSequentialFile world fname true =
        .done (Status.ok, ⟨fname⟩, world1) ∧
      world1.file_exists fname = true ∧ world1.files fname = some ⟨none⟩ ∧
      (∀ q, q ≠ fname → world1.files q = world.files q) ∧
      world1.directory = world.directory) ∧
    (∃ world1, PmemEnv.NewRandomAccessFile world fname true =
        .done (Status.ok, ⟨fname⟩, world1) ∧
      world1.file_exists fname = true ∧ world1.files fname = some ⟨none⟩ ∧
      (∀ q, q ≠ fname → world1.files q = world.files q) ∧
      world1.directory = world.directory) ∧
    PmemEnv.NewSequentialFile world fname false = .threw ∧
    PmemEnv.NewRandomAccessFile world fname false = .threw := by
  have hnone : world.files fname = none := by
    simpa [Pmem.file_exists] using hmissing
  refine ⟨?_, ?_, rfl, rfl⟩
  · obtain ⟨w1, h1, h2, h3, h4⟩ := PmemEnv.NewSequentialFile_ok world fname
    rw [hnone] at h3
    exact ⟨w1, h1, by simp [Pmem.file_exists, h3], h3, h4, h2⟩
  · obtain ⟨w1, h1, h2, h3, h4⟩ := PmemEnv.NewRandomAccessFile_ok world fname
    rw [hnone] at h3
    exact ⟨w1, h1, by simp [Pmem.file_exists, h3], h3, h4, h2⟩

/-- C6 amended, at the state with one data file `A` and the path `missing`. -/
theorem C6_read_open_missing_creates_witness :
    (Pmem.single "A" [1, 2, 3]).file_exists "missing" = false ∧
    (∃ world1, PmemEnv.NewSequentialFile (Pmem.single "A" [1, 2, 3]) "missing" true =
        .done (Status.ok, ⟨"missing"⟩, world1) ∧
      world1.file_exists "missing" = true) :=
  ⟨by decide,
    match (C6_read_open_missing_creates (Pmem.single "A" [1, 2, 3]) "missing"
      (by decide)).1 with
    | ⟨world1, h1, h2, _⟩ => ⟨world1, h1, h2⟩⟩

/-- C8 (sequential read returns at most `n` bytes), evaluated on the code: when
the underlying read reports a failure by the count -1 on a request of 10
bytes, `PmemSequentialFile::Read` returns OK with a result of length
`2^64 - 1`. -/
theorem C8_sequential_read_failure_length :
    PmemSequentialFile.Read (fun _ => (-1, [])) 10 =
      (Status.ok, ⟨[], 18446744073709551615⟩) ∧
    ¬ ((PmemSequentialFile.Read (fun _ => (-1, [])) 10).2.size ≤ 10) := by
  refine ⟨by decide, by decide⟩

/-- C9 (random read degrades to empty): for every offset, every `n` and every
outcome of the underlying read in the range of `ssize_t`,
`PmemRandomAccessFile::Read` returns OK; the result has length zero when the
underlying read reports a failure by a negative count, and the length is the
count otherwise; with the underlying read of the specification, the result has
length zero when the offset is beyond the content length or the read fails. -/
theorem C9_random_read_degrades (rd : Nat → Nat → ReadOutcome) (offset n : Nat)
    (hr : isSSizeT (rd offset n).1) :
    (PmemRandomAccessFile.Read rd offset n).1 = Status.ok ∧
    ((rd offset n).1 < 0 → (PmemRandomAccessFile.Read rd offset n).2.size = 0) ∧
    (0 ≤ (rd offset n).1 →
      ((PmemRandomAccessFile.Read rd offset n).2.size : Int) = (rd offset n).1) ∧
    (∀ (f : PmemFile) (failure : Bool), f.contents.length < offset ∨ failure = true →
      PmemRandomAccessFile.Read (f.ReadAt failure) offset n = (Status.ok, ⟨[], 0⟩)) := by
  obtain ⟨hlo, hhi⟩ := hr
  refine ⟨rfl, ?_, ?_, ?_⟩
  · intro hneg
    simp [PmemRandomAccessFile.Read, hneg, toSizeT]
  · intro hpos
    have hn : ¬ (rd offset n).1 < 0 := by omega
    simp only [PmemRandomAccessFile.Read, hn, if_false, toSizeT]
    have : (rd offset n).1 % 2 ^ 64 = (rd offset n).1 :=
      Int.emod_eq_of_lt hpos (by omega)
    rw [this]
    exact Int.toNat_of_nonneg hpos
  · intro f failure h
    cases failure with
    | true => simp [PmemRandomAccessFile.Read, PmemFile.ReadAt, toSizeT]
    | false =>
      have hlt : f.contents.length < offset := by simpa using h
      have hd : f.contents.drop offset = [] := List.drop_eq_nil_of_le (by omega)
      simp [PmemRandomAccessFile.Read, PmemFile.ReadAt, toSizeT, hd]

/-- C9 at a concrete input: the underlying read returns the count 3. -/
theorem C9_random_read_degrades_witness :
    isSSizeT 3 ∧
    ((PmemRandomAccessFile.Read (fun _ _ => (3, [7, 8, 9])) 2 5).2.size : Int) = 3 :=
  ⟨by unfold isSSizeT; omega,
    (C9_random_read_degrades (fun _ _ => (3, [7, 8, 9])) 2 5
      (by unfold isSSizeT; simp)).2.2.1 (by simp)⟩

/-- C10 as stated fails: in a newly constructed environment `NewWritableFile`
creates `a` and registers it; a second writer is then opened on `a`, which
exists, and a second reference is appended: the registry lists `a` twice. -/
theorem C10_registry_counterexample :
    ((PmemEnv.new Pmem.empty true).bind fun w =>
        PmemEnv.applyAll 4 w [.newWritableFile "a" true]).toOption.map
      (fun w => (w.file_exists "a", w.registry)) = some (true, some ["a"]) ∧
    ((PmemEnv.new Pmem.empty true).bind fun w =>
        PmemEnv.applyAll 4 w [.newWritableFile "a" true, .newAppendableFile "a" true]
      ).toOption.map (fun w => w.registry) = some (some ["a", "a"]) := by
  refine ⟨by decide, by decide⟩

/-- C10 amended (the registry is an append-only log of writer openings within
one environment instance): `NewWritableFile` and `NewAppendableFile` append a
reference to the pool of their path on every call, whether or not the path
existed before, before they return; `NewSequentialFile`, `NewRandomAccessFile`
and `DeleteFile` leave the registry unchanged.  So for every sequence of these
calls in which no pool operation throws, on an environment whose registry is
allocated, every call returns and the registry afterwards is the registry
before followed by the paths of the writer-opening calls, in order: no entry
is lost. -/
theorem C10_registry_append_log (kBufSize : Nat) (world : Pmem) (ops : List EnvOp)
    (entries : List String) (hreg : world.registry = some entries)
    (hok : ∀ op ∈ ops, op.poolOk = true) :
    ∃ world1, PmemEnv.applyAll kBufSize world ops = .done world1 ∧
      world1.registry = some (entries ++ ops.filterMap EnvOp.writerOpen) :=
  PmemEnv.applyAll_registry kBufSize ops world entries hreg hok

/-- C10 amended, at a concrete input: a registry holding `a`, then a reader
opened on `b`, a writer on `a`, `a` deleted, an appendable writer on `c`. -/
theorem C10_registry_append_log_witness :
    (Pmem.single "a" [1]).registry = some ["a"] ∧
    (∀ op ∈ [EnvOp.newSequentialFile "b" true, .newWritableFile "a" true,
        .deleteFile "a" none, .newAppendableFile "c" true], op.poolOk = true) ∧
    ∃ world1, PmemEnv.applyAll 4 (Pmem.single "a" [1])
        [.newSequentialFile "b" true, .newWritableFile "a" true, .deleteFile "a" none,
         .newAppendableFile "c" true] = .done world1 ∧
      world1.registry = some (["a"] ++ ["a", "c"]) :=
  ⟨rfl, by decide,
    C10_registry_append_log 4 (Pmem.single "a" [1])
      [.newSequentialFile "b" true, .newWritableFile "a" true, .deleteFile "a" none,
       .newAppendableFile "c" true] ["a"] rfl (by decide)⟩

/-- C11 (a failed `LockFile` changes nothing): for every path, every lock
table and every answer of the operating system, if `LockFile` returns a status
that is not OK, then `open` failed, or the path was already in the table, or
the record lock failed; the returned lock is null and the table after the call
is the table before it, so a path whose record lock failed is not left marked
as held. -/
theorem C11_failed_lock_changes_nothing (locks_ : PosixLockTable) (fname : String)
    (os : LockOs) (hfail : (PmemEnv.LockFile locks_ fname os).1 ≠ Status.ok) :
    (os.fd < 0 ∨ fname ∈ locks_.locked_files_ ∨ os.lockResult = -1) ∧
    (PmemEnv.LockFile locks_ fname os).2.1 = none ∧
    (PmemEnv.LockFile locks_ fname os).2.2 = locks_ ∧
    (∀ q, q ∈ (PmemEnv.LockFile locks_ fname os).2.2.locked_files_ ↔
      q ∈ locks_.locked_files_) ∧
    (0 ≤ os.fd → fname ∉ locks_.locked_files_ →
      fname ∉ (PmemEnv.LockFile locks_ fname os).2.2.locked_files_) := by
  have key : (os.fd < 0 ∨ fname ∈ locks_.locked_files_ ∨ os.lockResult = -1) ∧
      (PmemEnv.LockFile locks_ fname os).2.1 = none ∧
      (PmemEnv.LockFile locks_ fname os).2.2 = locks_ := by
    by_cases hfd : os.fd < 0
    · simp [PmemEnv.LockFile, hfd]
    · by_cases hmem : fname ∈ locks_.locked_files_
      · simp [PmemEnv.LockFile, hfd, PosixLockTable.Insert_present _ _ hmem, hmem]
      · by_cases hl : os.lockResult = -1
        · have hrem := PosixLockTable.Remove_cons_absent locks_.locked_files_ fname hmem
          simp [PmemEnv.LockFile, hfd, PosixLockTable.Insert_absent _ _ hmem, hl, hrem]
        · exfalso
          apply hfail
          simp [PmemEnv.LockFile, hfd, PosixLockTable.Insert_absent _ _ hmem, hl]
  obtain ⟨h1, h2, h3⟩ := key
  refine ⟨h1, h2, h3, fun q => by rw [h3], fun _ hno => by rw [h3]; exact hno⟩

/-- C11 at a concrete input: the table holds `other`, `open` returns the
descriptor 3 and the record lock on `LOCK` fails with error 11. -/
theorem C11_failed_lock_changes_nothing_witness :
    (PmemEnv.LockFile ⟨["other"]⟩ "LOCK" ⟨3, 0, -1, 11⟩).1 ≠ Status.ok ∧
    (PmemEnv.LockFile ⟨["other"]⟩ "LOCK" ⟨3, 0, -1, 11⟩).2.1 = none ∧
    (PmemEnv.LockFile ⟨["other"]⟩ "LOCK" ⟨3, 0, -1, 11⟩).2.2 = ⟨["other"]⟩ :=
  ⟨by decide,
    (C11_failed_lock_changes_nothing ⟨["other"]⟩ "LOCK" ⟨3, 0, -1, 11⟩ (by decide)).2.1,
    (C11_failed_lock_changes_nothing ⟨["other"]⟩ "LOCK" ⟨3, 0, -1, 11⟩ (by decide)).2.2.1⟩

/-- C12 (a flush empties the buffer whether or not it succeeds): `Flush`, `Sync`
and `Close` are `FlushBuffered`; for every writer state, whenever
`FlushBuffered` returns, with whatever status, `pos_` is 0 and only a prefix of
the staged bytes has been appended, a proper prefix when the status is an
error; every later `Flush`, `Sync` or `Close` then returns OK without any
durable append, so the staged bytes that were not written are never written.
A durable append that fails at once makes `FlushBuffered` return the error with
nothing written and `pos_ = 0`.  An `Append` that returns an error (from its
overflow flush or from its direct write) leaves `pos_ = 0` as well.  Example
with a buffer of 4 bytes holding 1, 2: `Append` of 3, 4, 5 fills the buffer,
the flush fails with error 5, and a successful `Close` afterwards leaves the
content as it was. -/
theorem C12_flush_empties_buffer (kBufSize : Nat) (w : PmemWritableFile) (file : PmemFile)
    (dev : Device) :
    (w.Flush file dev = w.FlushBuffered file dev ∧
     w.Sync file dev = w.FlushBuffered file dev ∧
     w.Close file dev = w.FlushBuffered file dev) ∧
    (∀ s w1 file1 dev1, w.FlushBuffered file dev = .done (s, w1, file1, dev1) →
      w1.pos_ = 0 ∧ w1.staged = [] ∧
      (∃ k, k ≤ w.staged.length ∧ file1.contents = file.contents ++ w.staged.take k ∧
        (s ≠ Status.ok → k < w.staged.length)) ∧
      (∀ dev2, w1.Flush file1 dev2 = .done (Status.ok, w1, file1, dev2) ∧
        w1.Sync file1 dev2 = .done (Status.ok, w1, file1, dev2) ∧
        w1.Close file1 dev2 = .done (Status.ok, w1, file1, dev2))) ∧
    (∀ b e, w.staged ≠ [] → b w.staged.length = .failed e → e ≠ EINTR →
      w.FlushBuffered file (b :: dev) =
        .done (PosixError w.filename_ e, { w with pos_ := 0 }, file, dev)) ∧
    (∀ data s w1 file1 dev1,
      w.Append kBufSize data file dev = .done (s, w1, file1, dev1) → s ≠ Status.ok →
      w1.pos_ = 0 ∧ ∀ dev2, w1.Close file1 dev2 = .done (Status.ok, w1, file1, dev2)) ∧
    (PmemWritableFile.Append 4 ⟨"A", [1, 2, 0, 0], 2⟩ [3, 4, 5] ⟨[9]⟩
        [failsWith 5, takesAll] =
      .done (PosixError "A" 5, ⟨"A", [1, 2, 3, 4], 0⟩, ⟨[9]⟩, [takesAll]) ∧
     PmemWritableFile.Close ⟨"A", [1, 2, 3, 4], 0⟩ ⟨[9]⟩ [takesAll] =
      .done (Status.ok, ⟨"A", [1, 2, 3, 4], 0⟩, ⟨[9]⟩, [takesAll])) := by
  refine ⟨⟨rfl, rfl, rfl⟩, ?_, ?_, ?_, ⟨rfl, rfl⟩⟩
  · intro s w1 file1 dev1 h
    obtain ⟨hw, hw1⟩ := PmemWritableFile.FlushBuffered_done w file dev s w1 file1 dev1 h
    obtain ⟨_, k, hk, hc, hcase⟩ := WriteRaw_done _ _ _ _ _ _ _ hw
    have hp : w1.pos_ = 0 := by rw [hw1]
    refine ⟨hp, by simp [PmemWritableFile.staged, hp], ⟨k, hk, hc, ?_⟩, ?_⟩
    · intro hs
      rcases hcase with ⟨h1, _⟩ | ⟨_, _, _, h3⟩
      · exact absurd h1 hs
      · exact h3
    · intro dev2
      have := PmemWritableFile.FlushBuffered_empty w1 file1 dev2 hp
      exact ⟨this, this, this⟩
  · intro b e hne hb he
    unfold PmemWritableFile.FlushBuffered
    unfold PmemWritableFile.staged at hne hb
    cases hst : w.buf_.take w.pos_ with
    | nil => exact absurd hst hne
    | cons x xs =>
      rw [hst] at hb
      simp only [List.length_cons] at hb
      rw [WriteRaw_cons, hb]
      simp [he, Run.bind]
  · intro data s w1 file1 dev1 h hs
    have hp := PmemWritableFile.Append_error_pos kBufSize w data file dev s w1 file1 dev1 h hs
    exact ⟨hp, fun dev2 => PmemWritableFile.FlushBuffered_empty w1 file1 dev2 hp⟩

end leveldb
